import Mathlib

/-!
Verification of the expirable LRU cache (`lru.go`, `list.go`).

The Go cache is shallowly embedded as follows:
* `time.Time` / `time.Duration` become `Int` (nanoseconds); `now.Add(ttl)` is
  `now + ttl`, and `a.After(b)` is `a > b` (Go's `After` is strict).
* A list node (`*Element`) is identified by a `Nat` node id standing for its
  address; `CacheState.nextId` is a fresh-address allocator, so ids of live
  nodes are pairwise distinct exactly as addresses are.
* The intrusive ring `evictList` becomes a Lean list of `(id, entry)` pairs in
  front-to-back order (front = most recently used); the ring's maintained `len`
  counter is the separate field `listLen`, updated exactly where the Go code
  updates `l.len`.
* The Go map `items : map[KT]*Element` becomes an association list from key to
  node id; a map assignment on an absent key is a cons, `delete` is a filter.
* The optional `onEvicted` callback is modelled by having every mutating
  operation return the list of `(key, value)` pairs it would invoke the
  callback on, in invocation order.
* The mutex and the background goroutine are not modelled: every public
  operation holds the lock for its whole body, so the semantics is the
  sequential semantics of the bodies; the background sweep tick is the
  `deleteExpired` operation.
-/

set_option linter.unusedSectionVars false

namespace Lru

/-- `expirableEntry` from `lru.go`: key, value and absolute expiry time. -/
structure Entry (KT VT : Type) where
  key : KT
  value : VT
  expiresAt : Int
  deriving DecidableEq, Repr

/-- The state of `Cache[KT, VT]` from `lru.go`: capacity (`size`), default
`ttl`, the key-to-node map `items`, the eviction list in front-to-back order,
the list's maintained length counter, and the fresh node-id allocator. -/
structure CacheState (KT VT : Type) where
  size : Nat
  ttl : Int
  items : List (KT × Nat)
  evictList : List (Nat × Entry KT VT)
  listLen : Nat
  nextId : Nat
  deriving DecidableEq, Repr

variable {KT VT : Type} [DecidableEq KT]

/-- Go map lookup `c.items[key]`: first (only, since keys are unique) binding. -/
def assocFind (k : KT) : List (KT × Nat) → Option Nat
  | [] => none
  | p :: rest => if p.1 = k then some p.2 else assocFind k rest

/-- Dereference a node id: look the node up in the eviction list. -/
def findNode (id : Nat) : List (Nat × Entry KT VT) → Option (Entry KT VT)
  | [] => none
  | p :: rest => if p.1 = id then some p.2 else findNode id rest

/-- `evictList.MoveToFront(ent)` (`list.go`): the node with the given id is
spliced to the front, every other node keeps its relative order.  (When the
node is already at the front the Go guard returns early; the result is the
same list.) -/
def moveToFrontBy (id : Nat) (l : List (Nat × Entry KT VT)) :
    List (Nat × Entry KT VT) :=
  l.filter (fun p => p.1 == id) ++ l.filter (fun p => !(p.1 == id))

/-- The in-place mutation `ent.Value.value = value; ent.Value.expiresAt = e`
through the node pointer: rewrite the entry stored at node `id`. -/
def updateNode (id : Nat) (v : VT) (e : Int) (l : List (Nat × Entry KT VT)) :
    List (Nat × Entry KT VT) :=
  l.map (fun p => if p.1 = id then (p.1, ⟨p.2.key, v, e⟩) else p)

/-- `noEvictionTTL = time.Hour * 24 * 365 * 10` in nanoseconds. -/
def noEvictionTTL : Int := 3600000000000 * 24 * 365 * 10

/-- `NewLRU` (`lru.go`): negative size clamps to 0 (unlimited), non-positive
ttl clamps to `noEvictionTTL`.  (`purgeEvery` only configures the background
goroutine and does not enter the sequential state.) -/
def newLRU (size : Int) (ttl : Int) : CacheState KT VT :=
  { size := size.toNat
    ttl := if ttl ≤ 0 then noEvictionTTL else ttl
    items := []
    evictList := []
    listLen := 0
    nextId := 0 }

/-- `removeElement` (`lru.go`): unlink the node from the list, delete its key
from the map, report the callback invocation `(key, value)`. -/
def removeElement (c : CacheState KT VT) (e : Nat × Entry KT VT) :
    CacheState KT VT × List (KT × VT) :=
  ({ c with
      evictList := c.evictList.filter (fun p => !(p.1 == e.1))
      listLen := c.listLen - 1
      items := c.items.filter (fun p => !(p.1 == e.2.key)) },
   [(e.2.key, e.2.value)])

/-- `removeOldest` (`lru.go`): remove the back (last) node if the list is
non-empty. -/
def removeOldest (c : CacheState KT VT) : CacheState KT VT × List (KT × VT) :=
  match c.evictList.getLast? with
  | none => (c, [])
  | some e => removeElement c e

/-- `add` (`lru.go`): refresh in place and move to front when the key exists
(returning `evicted = false`), otherwise push a fresh node to the front,
insert into the map, and evict the back node when the bounded capacity is
exceeded.  Returns (state, evicted, callback invocations). -/
def add (c : CacheState KT VT) (now : Int) (key : KT) (value : VT)
    (ttl : Int) : CacheState KT VT × Bool × List (KT × VT) :=
  match assocFind key c.items with
  | some id =>
      let el := updateNode id value (now + ttl) (moveToFrontBy id c.evictList)
      ({ c with evictList := el }, false, [])
  | none =>
      let id := c.nextId
      let c1 : CacheState KT VT :=
        { c with
            evictList := (id, ⟨key, value, now + ttl⟩) :: c.evictList
            listLen := c.listLen + 1
            items := (key, id) :: c.items
            nextId := id + 1 }
      if c1.size > 0 ∧ c1.items.length > c1.size then
        let r := removeOldest c1
        (r.1, true, r.2)
      else
        (c1, false, [])

/-- `Add` (`lru.go`): `add` with the cache's default ttl. -/
def Add (c : CacheState KT VT) (now : Int) (key : KT) (value : VT) :
    CacheState KT VT × Bool × List (KT × VT) :=
  add c now key value c.ttl

/-- `AddWithTTL` (`lru.go`): `add` with a per-call ttl. -/
def AddWithTTL (c : CacheState KT VT) (now : Int) (key : KT) (value : VT)
    (ttl : Int) : CacheState KT VT × Bool × List (KT × VT) :=
  add c now key value ttl

/-- `Get` (`lru.go`): not-found when absent; not-found (and no mutation) when
`now` is strictly after the entry's expiry; otherwise move to front and
return the value. -/
def Get (c : CacheState KT VT) (now : Int) (key : KT) :
    CacheState KT VT × Option VT :=
  match assocFind key c.items with
  | some id =>
      match findNode id c.evictList with
      | some ent =>
          if now > ent.expiresAt then (c, none)
          else ({ c with evictList := moveToFrontBy id c.evictList },
                some ent.value)
      | none => (c, none)
  | none => (c, none)

/-- `Peek` (`lru.go`): like `Get` but never reorders the list. -/
def Peek (c : CacheState KT VT) (now : Int) (key : KT) : Option VT :=
  match assocFind key c.items with
  | some id =>
      match findNode id c.evictList with
      | some ent => if now > ent.expiresAt then none else some ent.value
      | none => none
  | none => none

/-- `GetOldest` (`lru.go`): the back node's key and value, without mutation. -/
def GetOldest (c : CacheState KT VT) : Option (KT × VT) :=
  (c.evictList.getLast?).map (fun e => (e.2.key, e.2.value))

/-- `Contains` (`lru.go`): map membership only. -/
def Contains (c : CacheState KT VT) (key : KT) : Bool :=
  (assocFind key c.items).isSome

/-- `Remove` (`lru.go`): remove the key's node if present. -/
def Remove (c : CacheState KT VT) (key : KT) :
    CacheState KT VT × Bool × List (KT × VT) :=
  match assocFind key c.items with
  | some id =>
      match findNode id c.evictList with
      | some ent =>
          let r := removeElement c (id, ent)
          (r.1, true, r.2)
      | none => (c, true, [])
  | none => (c, false, [])

/-- `keys` (`lru.go`): all keys, oldest (back) to newest (front). -/
def keysOf (c : CacheState KT VT) : List KT :=
  (c.evictList.map (fun e => e.2.key)).reverse

/-- `Len` (`lru.go`): the eviction list's maintained length counter. -/
def Len (c : CacheState KT VT) : Nat := c.listLen

/-- `Purge` (`lru.go`): fire the callback for every map entry, clear the map,
re-initialise the list. -/
def purge (c : CacheState KT VT) : CacheState KT VT × List (KT × VT) :=
  ({ c with items := [], evictList := [], listLen := 0 },
   c.items.filterMap (fun p =>
     (findNode p.2 c.evictList).map (fun ent => (p.1, ent.value))))

/-- The loop body sequence of `deleteExpired` (`lru.go`): walk the snapshot of
`keys()`, removing each key whose entry has expired. -/
def deleteExpiredAux (now : Int) :
    List KT → CacheState KT VT → CacheState KT VT × List (KT × VT)
  | [], c => (c, [])
  | k :: ks, c =>
      match assocFind k c.items with
      | some id =>
          match findNode id c.evictList with
          | some ent =>
              if now > ent.expiresAt then
                let r := removeElement c (id, ent)
                let r2 := deleteExpiredAux now ks r.1
                (r2.1, r.2 ++ r2.2)
              else deleteExpiredAux now ks c
          | none => deleteExpiredAux now ks c
      | none => deleteExpiredAux now ks c

/-- `deleteExpired` (`lru.go`). -/
def deleteExpired (c : CacheState KT VT) (now : Int) :
    CacheState KT VT × List (KT × VT) :=
  deleteExpiredAux now (keysOf c) c

/-- The `for i := 0; i < diff; i++ { c.removeOldest() }` loop of `Resize`. -/
def removeOldestN : Nat → CacheState KT VT → CacheState KT VT × List (KT × VT)
  | 0, c => (c, [])
  | n + 1, c =>
      let r := removeOldest c
      let r2 := removeOldestN n r.1
      (r2.1, r.2 ++ r2.2)

/-- `Resize` (`lru.go`): no-op returning 0 for `size <= 0`; otherwise evict
`max(len - size, 0)` oldest entries, store the new capacity, return the
count. -/
def Resize (c : CacheState KT VT) (size : Int) :
    CacheState KT VT × Int × List (KT × VT) :=
  if size ≤ 0 then (c, 0, [])
  else
    let diff : Int := max ((c.listLen : Int) - size) 0
    let r := removeOldestN diff.toNat c
    ({ r.1 with size := size.toNat }, diff, r.2)

/-- The public operations of the cache, for quantifying over call sequences. -/
inductive Op (KT VT : Type) where
  | add (now : Int) (key : KT) (value : VT)
  | addWithTTL (now : Int) (key : KT) (value : VT) (ttl : Int)
  | get (now : Int) (key : KT)
  | peek (now : Int) (key : KT)
  | getOldest
  | contains (key : KT)
  | remove (key : KT)
  | removeOldest
  | keys
  | deleteExpired (now : Int)
  | resize (size : Int)
  | purge
  | len

/-- Apply one public operation; result state and callback invocations. -/
def applyOp : Op KT VT → CacheState KT VT → CacheState KT VT × List (KT × VT)
  | .add now k v, c => let r := add c now k v c.ttl; (r.1, r.2.2)
  | .addWithTTL now k v t, c => let r := add c now k v t; (r.1, r.2.2)
  | .get now k, c => ((Get c now k).1, [])
  | .peek _ _, c => (c, [])
  | .getOldest, c => (c, [])
  | .contains _, c => (c, [])
  | .remove k, c => let r := Remove c k; (r.1, r.2.2)
  | .removeOldest, c => removeOldest c
  | .keys, c => (c, [])
  | .deleteExpired now, c => deleteExpired c now
  | .resize n, c => let r := Resize c n; (r.1, r.2.2)
  | .purge, c => purge c
  | .len, c => (c, [])

/-- States reachable from a freshly constructed cache by public operations. -/
inductive Reachable : CacheState KT VT → Prop
  | init (size ttl : Int) : Reachable (newLRU size ttl)
  | step {c : CacheState KT VT} (op : Op KT VT) :
      Reachable c → Reachable (applyOp op c).1

/-- The key/id pairs stored in the eviction list, in list order. -/
def keyIdPairs (c : CacheState KT VT) : List (KT × Nat) :=
  c.evictList.map (fun e => (e.2.key, e.1))

/-- The structural invariant tying `items`, `evictList`, `listLen` and
`nextId` together: node ids and keys are duplicate-free, ids are below the
allocator, the map holds exactly the key/id pairs of the list, the map's keys
are duplicate-free, and the length counter is the list's length. -/
def Inv (c : CacheState KT VT) : Prop :=
  (c.evictList.map (fun e => e.1)).Nodup ∧
  (c.evictList.map (fun e => e.2.key)).Nodup ∧
  (∀ e ∈ c.evictList, e.1 < c.nextId) ∧
  (∀ p ∈ c.items, p ∈ keyIdPairs c) ∧
  (∀ p ∈ keyIdPairs c, p ∈ c.items) ∧
  (c.items.map (fun p => p.1)).Nodup ∧
  c.listLen = c.evictList.length

instance (c : CacheState KT VT) : Decidable (Inv c) := by
  unfold Inv keyIdPairs; infer_instance

/-! ### Lookup lemmas -/

theorem assocFind_eq_none {k : KT} {l : List (KT × Nat)} :
    assocFind k l = none ↔ ∀ p ∈ l, p.1 ≠ k := by
  induction l with
  | nil => simp [assocFind]
  | cons p rest ih =>
      by_cases h : p.1 = k <;> simp [assocFind, h, ih]

theorem assocFind_mem {k : KT} {id : Nat} {l : List (KT × Nat)}
    (h : assocFind k l = some id) : (k, id) ∈ l := by
  induction l with
  | nil => simp [assocFind] at h
  | cons p rest ih =>
      obtain ⟨p1, p2⟩ := p
      by_cases hp : p1 = k
      · simp [assocFind, hp] at h
        subst hp; subst h
        exact List.mem_cons_self _ _
      · simp [assocFind, hp] at h
        exact List.mem_cons_of_mem _ (ih h)

theorem assocFind_of_mem {k : KT} {id : Nat} {l : List (KT × Nat)}
    (hnd : (l.map (fun p => p.1)).Nodup) (h : (k, id) ∈ l) :
    assocFind k l = some id := by
  induction l with
  | nil => simp at h
  | cons p rest ih =>
      simp only [List.map_cons, List.nodup_cons] at hnd
      rcases List.mem_cons.1 h with h | h
      · simp [assocFind, ← h]
      · have hp : p.1 ≠ k := by
          intro hk
          exact hnd.1 (hk ▸ List.mem_map.2 ⟨(k, id), h, rfl⟩)
        simp [assocFind, hp]
        exact ih hnd.2 h

theorem findNode_eq_none {id : Nat} {l : List (Nat × Entry KT VT)} :
    findNode id l = none ↔ ∀ p ∈ l, p.1 ≠ id := by
  induction l with
  | nil => simp [findNode]
  | cons p rest ih =>
      by_cases h : p.1 = id <;> simp [findNode, h, ih]

theorem findNode_mem {id : Nat} {ent : Entry KT VT}
    {l : List (Nat × Entry KT VT)} (h : findNode id l = some ent) :
    (id, ent) ∈ l := by
  induction l with
  | nil => simp [findNode] at h
  | cons p rest ih =>
      obtain ⟨p1, p2⟩ := p
      by_cases hp : p1 = id
      · simp [findNode, hp] at h
        subst hp; subst h
        exact List.mem_cons_self _ _
      · simp [findNode, hp] at h
        exact List.mem_cons_of_mem _ (ih h)

theorem findNode_of_mem {id : Nat} {ent : Entry KT VT}
    {l : List (Nat × Entry KT VT)}
    (hnd : (l.map (fun p => p.1)).Nodup) (h : (id, ent) ∈ l) :
    findNode id l = some ent := by
  induction l with
  | nil => simp at h
  | cons p rest ih =>
      simp only [List.map_cons, List.nodup_cons] at hnd
      rcases List.mem_cons.1 h with h | h
      · simp [findNode, ← h]
      · have hp : p.1 ≠ id := by
          intro hk
          exact hnd.1 (hk ▸ List.mem_map.2 ⟨(id, ent), h, rfl⟩)
        simp [findNode, hp]
        exact ih hnd.2 h

/-! ### Generic filter helpers -/

theorem filter_eq_singleton {α : Type} {l : List α} {p : α → Bool} {e : α}
    (hnd : l.Nodup) (he : e ∈ l) (hp : ∀ x ∈ l, p x = true ↔ x = e) :
    l.filter p = [e] := by
  induction l with
  | nil => simp at he
  | cons a rest ih =>
      rcases List.nodup_cons.1 hnd with ⟨hmem, hrest⟩
      rcases List.mem_cons.1 he with heq | he'
      · have hpa : p a = true := (hp a (List.mem_cons_self a rest)).2 heq.symm
        have hnil : rest.filter p = [] := by
          rw [List.filter_eq_nil_iff]
          intro x hx hpx
          have hxe : x = e := (hp x (List.mem_cons_of_mem _ hx)).1 hpx
          rw [heq] at hxe
          exact hmem (hxe ▸ hx)
        simp [List.filter_cons, hpa, hnil, heq]
      · have hpa : p a = false := by
          rcases Bool.eq_false_or_eq_true (p a) with h | h
          · exact absurd (((hp a (List.mem_cons_self a rest)).1 h) ▸ he')
              hmem
          · exact h
        simp [List.filter_cons, hpa]
        exact ih hrest he' (fun x hx => hp x (List.mem_cons_of_mem _ hx))

theorem mem_of_getLast?_eq_some {α : Type} {l : List α} {a : α}
    (h : l.getLast? = some a) : a ∈ l := by
  cases l with
  | nil => simp at h
  | cons x xs =>
      rw [List.getLast?_eq_getLast_of_ne_nil (List.cons_ne_nil x xs)] at h
      exact (Option.some_inj.1 h) ▸ List.getLast_mem _

/-! ### moveToFrontBy and updateNode lemmas -/

theorem moveToFrontBy_perm (id : Nat) (l : List (Nat × Entry KT VT)) :
    (moveToFrontBy id l).Perm l :=
  List.filter_append_perm _ l

theorem mem_moveToFrontBy {id : Nat} {l : List (Nat × Entry KT VT)}
    {x : Nat × Entry KT VT} : x ∈ moveToFrontBy id l ↔ x ∈ l :=
  (moveToFrontBy_perm id l).mem_iff

theorem length_moveToFrontBy (id : Nat) (l : List (Nat × Entry KT VT)) :
    (moveToFrontBy id l).length = l.length :=
  (moveToFrontBy_perm id l).length_eq

theorem moveToFrontBy_eq_cons {id : Nat} {ent : Entry KT VT}
    {l : List (Nat × Entry KT VT)}
    (hnd : (l.map (fun p => p.1)).Nodup) (h : (id, ent) ∈ l) :
    moveToFrontBy id l = (id, ent) :: l.filter (fun p => !(p.1 == id)) := by
  unfold moveToFrontBy
  have hsing : l.filter (fun p => p.1 == id) = [(id, ent)] := by
    apply filter_eq_singleton (List.Nodup.of_map _ hnd) h
    intro x hx
    simp only [beq_iff_eq]
    constructor
    · intro hx1
      exact List.inj_on_of_nodup_map hnd hx h hx1
    · rintro rfl; rfl
  rw [hsing]
  rfl

theorem updateNode_map_fst (id : Nat) (v : VT) (t : Int)
    (l : List (Nat × Entry KT VT)) :
    (updateNode id v t l).map (fun p => p.1) = l.map (fun p => p.1) := by
  unfold updateNode
  rw [List.map_map]
  apply List.map_congr_left
  intro a _
  by_cases h : a.1 = id <;> simp [h]

theorem updateNode_map_key (id : Nat) (v : VT) (t : Int)
    (l : List (Nat × Entry KT VT)) :
    (updateNode id v t l).map (fun p => p.2.key) = l.map (fun p => p.2.key) := by
  unfold updateNode
  rw [List.map_map]
  apply List.map_congr_left
  intro a _
  by_cases h : a.1 = id <;> simp [h]

theorem updateNode_keyIdPairs (id : Nat) (v : VT) (t : Int)
    (l : List (Nat × Entry KT VT)) :
    (updateNode id v t l).map (fun p => (p.2.key, p.1)) =
      l.map (fun p => (p.2.key, p.1)) := by
  unfold updateNode
  rw [List.map_map]
  apply List.map_congr_left
  intro a _
  by_cases h : a.1 = id <;> simp [h]

theorem length_updateNode (id : Nat) (v : VT) (t : Int)
    (l : List (Nat × Entry KT VT)) :
    (updateNode id v t l).length = l.length := by
  unfold updateNode
  exact List.length_map _ _

theorem updateNode_of_forall_ne {id : Nat} {v : VT} {t : Int}
    {l : List (Nat × Entry KT VT)} (h : ∀ p ∈ l, p.1 ≠ id) :
    updateNode id v t l = l := by
  unfold updateNode
  conv_rhs => rw [← List.map_id l]
  apply List.map_congr_left
  intro a ha
  rw [if_neg (h a ha)]
  rfl

/-! ### getLast / dropLast structure lemmas -/

theorem filter_ne_getLast {l : List (Nat × Entry KT VT)}
    {e : Nat × Entry KT VT}
    (hnd : (l.map (fun p => p.1)).Nodup) (h : l.getLast? = some e) :
    l.filter (fun p => !(p.1 == e.1)) = l.dropLast := by
  have hl : l.dropLast ++ [e] = l := List.dropLast_append_getLast? e h
  have hnd2 : ((l.dropLast ++ [e]).map (fun p => p.1)).Nodup := by
    rw [hl]; exact hnd
  rw [List.map_append, List.nodup_append] at hnd2
  conv_lhs => rw [← hl]
  rw [List.filter_append]
  have h1 : [e].filter (fun p => !(p.1 == e.1)) = [] := by simp
  have h2 : l.dropLast.filter (fun p => !(p.1 == e.1)) = l.dropLast := by
    rw [List.filter_eq_self]
    intro x hx
    have hne : x.1 ≠ e.1 := by
      intro hEq
      exact (hnd2.2.2 (List.mem_map.2 ⟨x, hx, rfl⟩)) (by simp [hEq])
    simp [hne]
  rw [h1, h2, List.append_nil]

/-! ### Consequences of the invariant -/

theorem Inv.items_perm {c : CacheState KT VT} (hc : Inv c) :
    c.items.Perm (keyIdPairs c) := by
  obtain ⟨hIds, hKeys, _, hIn, hOut, hIKeys, _⟩ := hc
  have h1 : c.items.Nodup := List.Nodup.of_map _ hIKeys
  have h2 : (keyIdPairs c).Nodup := by
    apply List.Nodup.of_map (f := fun p => p.1)
    have hmap : (keyIdPairs c).map (fun p => p.1) =
        c.evictList.map (fun e => e.2.key) := by
      unfold keyIdPairs
      rw [List.map_map]
      rfl
    rw [hmap]
    exact hKeys
  exact (List.perm_ext_iff_of_nodup h1 h2).2 (fun p => ⟨hIn p, hOut p⟩)

theorem Inv.items_length {c : CacheState KT VT} (hc : Inv c) :
    c.items.length = c.evictList.length := by
  have h := hc.items_perm.length_eq
  unfold keyIdPairs at h
  rw [List.length_map] at h
  exact h

/-! ### Invariant preservation -/

theorem inv_newLRU (size ttl : Int) :
    Inv (newLRU size ttl : CacheState KT VT) := by
  unfold Inv newLRU keyIdPairs
  simp

theorem inv_removeElement {c : CacheState KT VT} {e : Nat × Entry KT VT}
    (hc : Inv c) (he : e ∈ c.evictList) : Inv (removeElement c e).1 := by
  obtain ⟨hIds, hKeys, hLt, hIn, hOut, hIKeys, hLen⟩ := hc
  have hsing : c.evictList.filter (fun p => p.1 == e.1) = [e] := by
    apply filter_eq_singleton (List.Nodup.of_map _ hIds) he
    intro x hx
    simp only [beq_iff_eq]
    exact ⟨fun hx1 => List.inj_on_of_nodup_map hIds hx he hx1,
           fun hx1 => hx1 ▸ rfl⟩
  have hlenf : 1 + (c.evictList.filter (fun p => !(p.1 == e.1))).length =
      c.evictList.length := by
    have hperm := List.filter_append_perm (fun p => p.1 == e.1) c.evictList
    have := hperm.length_eq
    rw [List.length_append, hsing] at this
    simpa using this
  refine ⟨?_, ?_, ?_, ?_, ?_, ?_, ?_⟩
  · exact List.Nodup.sublist (List.Sublist.map _ (List.filter_sublist _)) hIds
  · exact List.Nodup.sublist (List.Sublist.map _ (List.filter_sublist _)) hKeys
  · intro x hx
    exact hLt x (List.mem_filter.1 hx).1
  · intro p hp
    rcases List.mem_filter.1 hp with ⟨hpi, hpk⟩
    rcases List.mem_map.1 (hIn p hpi) with ⟨x, hxl, hxp⟩
    apply List.mem_map.2
    refine ⟨x, List.mem_filter.2 ⟨hxl, ?_⟩, hxp⟩
    simp only [Bool.not_eq_eq_eq_not, Bool.not_true, beq_eq_false_iff_ne]
    intro hx1
    have hxe : x = e := List.inj_on_of_nodup_map hIds hxl he hx1
    rw [← hxp, hxe] at hpk
    simp at hpk
  · intro p hp
    rcases List.mem_map.1 hp with ⟨x, hxf, hxp⟩
    rcases List.mem_filter.1 hxf with ⟨hxl, hx1⟩
    apply List.mem_filter.2
    refine ⟨hOut p (List.mem_map.2 ⟨x, hxl, hxp⟩), ?_⟩
    simp only [Bool.not_eq_eq_eq_not, Bool.not_true, beq_eq_false_iff_ne]
    intro hpk
    have hkk : x.2.key = e.2.key := by rw [← hxp] at hpk; exact hpk
    have hxe : x = e := List.inj_on_of_nodup_map hKeys hxl he hkk
    rw [hxe] at hx1
    simp at hx1
  · exact List.Nodup.sublist (List.Sublist.map _ (List.filter_sublist _)) hIKeys
  · simp only [removeElement]
    omega

theorem inv_moveToFront {c : CacheState KT VT} {id : Nat} (hc : Inv c) :
    Inv { c with evictList := moveToFrontBy id c.evictList } := by
  obtain ⟨hIds, hKeys, hLt, hIn, hOut, hIKeys, hLen⟩ := hc
  have hperm := moveToFrontBy_perm id c.evictList
  refine ⟨?_, ?_, ?_, ?_, ?_, ?_, ?_⟩
  · exact ((hperm.map _).symm).nodup hIds
  · exact ((hperm.map _).symm).nodup hKeys
  · intro x hx
    exact hLt x (mem_moveToFrontBy.1 hx)
  · intro p hp
    exact ((hperm.map (fun p => (p.2.key, p.1))).symm).mem_iff.1 (hIn p hp)
  · intro p hp
    exact hOut p ((hperm.map (fun p => (p.2.key, p.1))).mem_iff.1 hp)
  · exact hIKeys
  · simpa [length_moveToFrontBy] using hLen

theorem inv_update {c : CacheState KT VT} {id : Nat} {v : VT} {t : Int}
    (hc : Inv c) :
    Inv { c with evictList := updateNode id v t c.evictList } := by
  obtain ⟨hIds, hKeys, hLt, hIn, hOut, hIKeys, hLen⟩ := hc
  refine ⟨?_, ?_, ?_, ?_, ?_, ?_, ?_⟩
  · rw [updateNode_map_fst]; exact hIds
  · rw [updateNode_map_key]; exact hKeys
  · intro x hx
    have hx1 : x.1 ∈ (updateNode id v t c.evictList).map (fun p => p.1) :=
      List.mem_map.2 ⟨x, hx, rfl⟩
    rw [updateNode_map_fst] at hx1
    rcases List.mem_map.1 hx1 with ⟨y, hy, hyx⟩
    exact hyx ▸ hLt y hy
  · intro p hp
    show p ∈ (updateNode id v t c.evictList).map (fun p => (p.2.key, p.1))
    rw [updateNode_keyIdPairs]
    exact hIn p hp
  · intro p hp
    apply hOut p
    show p ∈ c.evictList.map (fun p => (p.2.key, p.1))
    rw [← updateNode_keyIdPairs id v t]
    exact hp
  · exact hIKeys
  · simpa [length_updateNode] using hLen

theorem inv_removeOldest {c : CacheState KT VT} (hc : Inv c) :
    Inv (removeOldest c).1 := by
  unfold removeOldest
  cases hg : c.evictList.getLast? with
  | none => exact hc
  | some e => exact inv_removeElement hc (mem_of_getLast?_eq_some hg)

theorem inv_push {c : CacheState KT VT} {key : KT} (value : VT) (exp : Int)
    (hc : Inv c) (hf : assocFind key c.items = none) :
    Inv { c with
            evictList := (c.nextId, ⟨key, value, exp⟩) :: c.evictList
            listLen := c.listLen + 1
            items := (key, c.nextId) :: c.items
            nextId := c.nextId + 1 } := by
  obtain ⟨hIds, hKeys, hLt, hIn, hOut, hIKeys, hLen⟩ := hc
  have hknotin : ∀ p ∈ c.items, p.1 ≠ key := assocFind_eq_none.1 hf
  have hkeynotin : ∀ x ∈ c.evictList, x.2.key ≠ key := by
    intro x hx hxk
    exact hknotin (x.2.key, x.1) (hOut _ (List.mem_map.2 ⟨x, hx, rfl⟩)) hxk
  refine ⟨?_, ?_, ?_, ?_, ?_, ?_, ?_⟩
  · simp only [List.map_cons, List.nodup_cons]
    refine ⟨?_, hIds⟩
    intro hmem
    rcases List.mem_map.1 hmem with ⟨x, hx, hx1⟩
    exact absurd hx1 (Nat.ne_of_lt (hLt x hx))
  · simp only [List.map_cons, List.nodup_cons]
    refine ⟨?_, hKeys⟩
    intro hmem
    rcases List.mem_map.1 hmem with ⟨x, hx, hxk⟩
    exact hkeynotin x hx hxk
  · intro x hx
    rcases List.mem_cons.1 hx with rfl | hx
    · exact Nat.lt_succ_self _
    · exact Nat.lt_succ_of_lt (hLt x hx)
  · intro p hp
    rcases List.mem_cons.1 hp with rfl | hp
    · exact List.mem_cons_self _ _
    · exact List.mem_cons_of_mem _ (hIn p hp)
  · intro p hp
    rcases List.mem_cons.1 hp with rfl | hp
    · exact List.mem_cons_self _ _
    · exact List.mem_cons_of_mem _ (hOut p hp)
  · simp only [List.map_cons, List.nodup_cons]
    refine ⟨?_, hIKeys⟩
    intro hmem
    rcases List.mem_map.1 hmem with ⟨x, hx, hx1⟩
    exact hknotin x hx hx1
  · simp only [List.length_cons]
    omega

theorem inv_add {c : CacheState KT VT} (hc : Inv c) (now : Int) (key : KT)
    (value : VT) (ttl : Int) : Inv (add c now key value ttl).1 := by
  cases hf : assocFind key c.items with
  | some id =>
      simp only [add, hf]
      exact inv_update (inv_moveToFront hc)
  | none =>
      simp only [add, hf]
      split
      · exact inv_removeOldest (inv_push value (now + ttl) hc hf)
      · exact inv_push value (now + ttl) hc hf

theorem inv_Get {c : CacheState KT VT} (hc : Inv c) (now : Int) (key : KT) :
    Inv (Get c now key).1 := by
  cases hf : assocFind key c.items with
  | none => simp only [Get, hf]; exact hc
  | some id =>
      cases hn : findNode id c.evictList with
      | none => simp only [Get, hf, hn]; exact hc
      | some ent =>
          simp only [Get, hf, hn]
          split
          · exact hc
          · exact inv_moveToFront hc

theorem inv_Remove {c : CacheState KT VT} (hc : Inv c) (key : KT) :
    Inv (Remove c key).1 := by
  cases hf : assocFind key c.items with
  | none => simp only [Remove, hf]; exact hc
  | some id =>
      cases hn : findNode id c.evictList with
      | none => simp only [Remove, hf, hn]; exact hc
      | some ent =>
          simp only [Remove, hf, hn]
          exact inv_removeElement hc (findNode_mem hn)

theorem inv_purge {c : CacheState KT VT} : Inv (purge c).1 := by
  unfold Inv purge keyIdPairs
  simp

theorem inv_deleteExpiredAux {now : Int} (ks : List KT) {c : CacheState KT VT}
    (hc : Inv c) : Inv (deleteExpiredAux now ks c).1 := by
  induction ks generalizing c with
  | nil => exact hc
  | cons k ks ih =>
      simp only [deleteExpiredAux]
      cases hf : assocFind k c.items with
      | none => exact ih hc
      | some id =>
          dsimp only
          cases hn : findNode id c.evictList with
          | none => exact ih hc
          | some ent =>
              dsimp only
              split
              · exact ih (inv_removeElement hc (findNode_mem hn))
              · exact ih hc

theorem inv_deleteExpired {c : CacheState KT VT} (hc : Inv c) (now : Int) :
    Inv (deleteExpired c now).1 :=
  inv_deleteExpiredAux (keysOf c) hc

theorem inv_removeOldestN (k : Nat) {c : CacheState KT VT} (hc : Inv c) :
    Inv (removeOldestN k c).1 := by
  induction k generalizing c with
  | zero => exact hc
  | succ n ih =>
      simp only [removeOldestN]
      exact ih (inv_removeOldest hc)

theorem inv_setSize {c : CacheState KT VT} (hc : Inv c) (s : Nat) :
    Inv { c with size := s } := hc

theorem inv_Resize {c : CacheState KT VT} (hc : Inv c) (n : Int) :
    Inv (Resize c n).1 := by
  unfold Resize
  split
  · exact hc
  · exact inv_setSize (inv_removeOldestN _ hc) _

theorem reachable_inv {c : CacheState KT VT} (h : Reachable c) : Inv c := by
  induction h with
  | init size ttl => exact inv_newLRU size ttl
  | step op hr ih =>
      cases op with
      | add now k v => exact inv_add ih now k v _
      | addWithTTL now k v t => exact inv_add ih now k v t
      | get now k => exact inv_Get ih now k
      | peek _ _ => exact ih
      | getOldest => exact ih
      | contains _ => exact ih
      | remove k => exact inv_Remove ih k
      | removeOldest => exact inv_removeOldest ih
      | keys => exact ih
      | deleteExpired now => exact inv_deleteExpired ih now
      | resize n => exact inv_Resize ih n
      | purge => exact inv_purge
      | len => exact ih

/-! ### Back-of-list removal: precise description -/

theorem reverse_eq_getLast_cons {α : Type} {l : List α} {e : α}
    (h : l.getLast? = some e) : l.reverse = e :: l.dropLast.reverse := by
  conv_lhs => rw [← List.dropLast_append_getLast? e h]
  rw [List.reverse_concat]

theorem removeOldest_spec {c : CacheState KT VT} {e : Nat × Entry KT VT}
    (hc : Inv c) (hg : c.evictList.getLast? = some e) :
    (removeOldest c).1.evictList = c.evictList.dropLast ∧
    (removeOldest c).2 = [(e.2.key, e.2.value)] ∧
    (removeOldest c).1.listLen = c.listLen - 1 ∧
    (removeOldest c).1.size = c.size ∧
    (removeOldest c).1.items = c.items.filter (fun p => !(p.1 == e.2.key)) := by
  obtain ⟨hIds, _, _, _, _, _, _⟩ := hc
  refine ⟨?_, ?_, ?_, ?_, ?_⟩ <;>
    simp only [removeOldest, hg, removeElement] <;> try trivial
  exact filter_ne_getLast hIds hg

theorem removeOldestN_spec {c : CacheState KT VT} (hc : Inv c) (k : Nat)
    (hk : k ≤ c.evictList.length) :
    (removeOldestN k c).1.evictList =
      c.evictList.take (c.evictList.length - k) ∧
    (removeOldestN k c).2 =
      (c.evictList.reverse.take k).map (fun e => (e.2.key, e.2.value)) ∧
    (removeOldestN k c).1.listLen = c.listLen - k ∧
    (removeOldestN k c).1.size = c.size := by
  induction k generalizing c with
  | zero =>
      refine ⟨?_, ?_, ?_, ?_⟩ <;> simp [removeOldestN]
  | succ n ih =>
      have hne : c.evictList ≠ [] := by
        intro h0
        rw [h0] at hk
        simp at hk
      have hg := List.getLast?_eq_getLast_of_ne_nil hne
      obtain ⟨hEl, hCb, hLn, hSz, hIt⟩ := removeOldest_spec hc hg
      have hc1 : Inv (removeOldest c).1 := inv_removeOldest hc
      have hlen1 : (removeOldest c).1.evictList.length =
          c.evictList.length - 1 := by
        rw [hEl, List.length_dropLast]
      have hn1 : n ≤ (removeOldest c).1.evictList.length := by omega
      obtain ⟨iEl, iCb, iLn, iSz⟩ := ih hc1 hn1
      simp only [removeOldestN]
      refine ⟨?_, ?_, ?_, ?_⟩
      · rw [iEl, hlen1, hEl, List.dropLast_eq_take, List.take_take]
        congr 1
        omega
      · rw [iCb, hCb, hEl, reverse_eq_getLast_cons hg, List.take_succ_cons,
          List.map_cons]
        rfl
      · omega
      · rw [iSz, hSz]

/-! ### Length / size bookkeeping for the capacity invariant -/

theorem Get_fields (c : CacheState KT VT) (now : Int) (key : KT) :
    (Get c now key).1.listLen = c.listLen ∧ (Get c now key).1.size = c.size := by
  cases hf : assocFind key c.items with
  | none => simp only [Get, hf]; exact ⟨by trivial, by trivial⟩
  | some id =>
      cases hn : findNode id c.evictList with
      | none => simp only [Get, hf, hn]; exact ⟨by trivial, by trivial⟩
      | some ent =>
          simp only [Get, hf, hn]
          split
          · exact ⟨by trivial, by trivial⟩
          · exact ⟨by trivial, by trivial⟩

theorem Remove_fields (c : CacheState KT VT) (key : KT) :
    (Remove c key).1.listLen ≤ c.listLen ∧ (Remove c key).1.size = c.size := by
  cases hf : assocFind key c.items with
  | none => simp only [Remove, hf]; exact ⟨Nat.le_refl _, by trivial⟩
  | some id =>
      cases hn : findNode id c.evictList with
      | none => simp only [Remove, hf, hn]; exact ⟨Nat.le_refl _, by trivial⟩
      | some ent =>
          simp only [Remove, hf, hn, removeElement]
          exact ⟨Nat.sub_le _ _, by trivial⟩

theorem removeOldest_fields (c : CacheState KT VT) :
    (removeOldest c).1.listLen ≤ c.listLen ∧
    (removeOldest c).1.size = c.size := by
  cases hg : c.evictList.getLast? with
  | none => simp only [removeOldest, hg]; exact ⟨Nat.le_refl _, by trivial⟩
  | some e =>
      simp only [removeOldest, hg, removeElement]
      exact ⟨Nat.sub_le _ _, by trivial⟩

theorem deleteExpiredAux_fields (now : Int) (ks : List KT)
    (c : CacheState KT VT) :
    (deleteExpiredAux now ks c).1.listLen ≤ c.listLen ∧
    (deleteExpiredAux now ks c).1.size = c.size := by
  induction ks generalizing c with
  | nil => exact ⟨Nat.le_refl _, by trivial⟩
  | cons k ks ih =>
      simp only [deleteExpiredAux]
      cases hf : assocFind k c.items with
      | none => exact ih c
      | some id =>
          dsimp only
          cases hn : findNode id c.evictList with
          | none => exact ih c
          | some ent =>
              dsimp only
              split
              · have h := ih (removeElement c (id, ent)).1
                exact ⟨le_trans h.1 (Nat.sub_le _ _), h.2⟩
              · exact ih c

theorem add_cap {c : CacheState KT VT} (hc : Inv c)
    (hcap : c.size > 0 → c.listLen ≤ c.size) (now : Int) (key : KT) (v : VT)
    (ttl : Int) :
    (add c now key v ttl).1.size = c.size ∧
    (c.size > 0 → (add c now key v ttl).1.listLen ≤ c.size) := by
  have hIL := hc.items_length
  have hLL : c.listLen = c.evictList.length := hc.2.2.2.2.2.2
  cases hf : assocFind key c.items with
  | some id =>
      simp only [add, hf]
      exact ⟨by trivial, hcap⟩
  | none =>
      simp only [add, hf]
      split
      · rename_i hcond
        have hc1 := inv_push v (now + ttl) hc hf
        have hg : ((c.nextId, (⟨key, v, now + ttl⟩ : Entry KT VT)) ::
            c.evictList).getLast? ≠ none := by
          rw [List.getLast?_eq_getLast_of_ne_nil (List.cons_ne_nil _ _)]
          simp
        cases hg2 : ((c.nextId, (⟨key, v, now + ttl⟩ : Entry KT VT)) ::
            c.evictList).getLast? with
        | none => exact absurd hg2 hg
        | some e =>
            obtain ⟨_, _, hLn, hSz, _⟩ := removeOldest_spec hc1 hg2
            dsimp only at hLn hSz hcond ⊢
            refine ⟨hSz, fun hpos => ?_⟩
            have := hcap hpos
            simp only [List.length_cons] at hcond
            omega
      · rename_i hcond
        dsimp only at hcond ⊢
        refine ⟨rfl, fun hpos => ?_⟩
        rcases Decidable.not_and_iff_or_not.1 hcond with h | h
        · exact absurd hpos h
        · simp only [List.length_cons, Nat.not_lt] at h
          omega

theorem Resize_cap {c : CacheState KT VT} (hc : Inv c)
    (hcap : c.size > 0 → c.listLen ≤ c.size) (n : Int) :
    (Resize c n).1.size > 0 → (Resize c n).1.listLen ≤ (Resize c n).1.size := by
  have hLL : c.listLen = c.evictList.length := hc.2.2.2.2.2.2
  unfold Resize
  split
  · exact hcap
  · rename_i hn
    dsimp only
    have hk : (max ((c.listLen : Int) - n) 0).toNat ≤ c.evictList.length := by
      omega
    obtain ⟨_, _, hLn, _⟩ := removeOldestN_spec hc _ hk
    intro _
    show (removeOldestN (max ((c.listLen : Int) - n) 0).toNat c).1.listLen ≤
      n.toNat
    omega

theorem reachable_cap {c : CacheState KT VT} (h : Reachable c) :
    c.size > 0 → c.listLen ≤ c.size := by
  induction h with
  | init size ttl =>
      intro _
      simp [newLRU]
  | step op hr ih =>
      have hc := reachable_inv hr
      rename_i c
      cases op with
      | add now k v =>
          have h := add_cap hc ih now k v c.ttl
          show (add c now k v c.ttl).1.size > 0 →
            (add c now k v c.ttl).1.listLen ≤ (add c now k v c.ttl).1.size
          rw [h.1]
          exact h.2
      | addWithTTL now k v t =>
          have h := add_cap hc ih now k v t
          show (add c now k v t).1.size > 0 →
            (add c now k v t).1.listLen ≤ (add c now k v t).1.size
          rw [h.1]
          exact h.2
      | get now k =>
          have h := Get_fields c now k
          show (Get c now k).1.size > 0 →
            (Get c now k).1.listLen ≤ (Get c now k).1.size
          rw [h.1, h.2]
          exact ih
      | peek _ _ => exact ih
      | getOldest => exact ih
      | contains _ => exact ih
      | remove k =>
          have h := Remove_fields c k
          show (Remove c k).1.size > 0 →
            (Remove c k).1.listLen ≤ (Remove c k).1.size
          rw [h.2]
          intro hpos
          exact le_trans h.1 (ih hpos)
      | removeOldest =>
          have h := removeOldest_fields c
          show (removeOldest c).1.size > 0 →
            (removeOldest c).1.listLen ≤ (removeOldest c).1.size
          rw [h.2]
          intro hpos
          exact le_trans h.1 (ih hpos)
      | keys => exact ih
      | deleteExpired now =>
          have h := deleteExpiredAux_fields now (keysOf c) c
          show (deleteExpiredAux now (keysOf c) c).1.size > 0 →
            (deleteExpiredAux now (keysOf c) c).1.listLen ≤
              (deleteExpiredAux now (keysOf c) c).1.size
          rw [h.2]
          intro hpos
          exact le_trans h.1 (ih hpos)
      | resize n => exact Resize_cap hc ih n
      | purge =>
          intro _
          exact Nat.zero_le _
      | len => exact ih

theorem add_evictions {c : CacheState KT VT} (hc : Inv c) (now : Int)
    (key : KT) (v : VT) (ttl : Int) :
    (add c now key v ttl).2.2.length ≤ 1 ∧
    ((add c now key v ttl).2.1 = true ↔
      (add c now key v ttl).2.2.length = 1) := by
  cases hf : assocFind key c.items with
  | some id =>
      simp only [add, hf]
      exact ⟨by simp, by simp⟩
  | none =>
      simp only [add, hf]
      split
      · have hc1 := inv_push v (now + ttl) hc hf
        have hg2 := List.getLast?_eq_getLast_of_ne_nil
          (List.cons_ne_nil (c.nextId, (⟨key, v, now + ttl⟩ : Entry KT VT))
            c.evictList)
        obtain ⟨_, hCb, _, _, _⟩ := removeOldest_spec hc1 hg2
        dsimp only
        rw [hCb]
        exact ⟨by simp, by simp⟩
      · exact ⟨by simp, by simp⟩

theorem add_existing_shape {c : CacheState KT VT} (hc : Inv c) {key : KT}
    {id : Nat} (hf : assocFind key c.items = some id) (now : Int) (v : VT)
    (ttl : Int) :
    ∃ rest, (add c now key v ttl).1.evictList =
        (id, (⟨key, v, now + ttl⟩ : Entry KT VT)) :: rest ∧
      rest = updateNode id v (now + ttl)
        (c.evictList.filter (fun p => !(p.1 == id))) := by
  obtain ⟨hIds, hKeys, hLt, hIn, hOut, hIKeys, hLen⟩ := hc
  have hm : (key, id) ∈ keyIdPairs c := hIn _ (assocFind_mem hf)
  rcases List.mem_map.1 hm with ⟨x, hx, hxp⟩
  have hx1 : x.1 = id := congrArg Prod.snd hxp
  have hxk : x.2.key = key := congrArg Prod.fst hxp
  have hmem : (id, x.2) ∈ c.evictList := by
    rw [← hx1]
    exact hx
  have hmtf := moveToFrontBy_eq_cons hIds hmem
  simp only [add, hf]
  rw [hmtf]
  refine ⟨_, ?_, rfl⟩
  simp [updateNode, hxk]

theorem add_stores_entry {c : CacheState KT VT} (hc : Inv c) (now : Int)
    (key : KT) (v : VT) (ttl : Int) :
    ∃ id, assocFind key (add c now key v ttl).1.items = some id ∧
      findNode id (add c now key v ttl).1.evictList =
        some ⟨key, v, now + ttl⟩ := by
  cases hf : assocFind key c.items with
  | some id =>
      obtain ⟨rest, hEl, _⟩ := add_existing_shape hc hf now v ttl
      refine ⟨id, ?_, ?_⟩
      · simp only [add, hf]
      · rw [hEl]
        simp [findNode]
  | none =>
      have hIL := hc.items_length
      obtain ⟨hIds, hKeys, hLt, hIn, hOut, hIKeys, hLen⟩ := hc
      have hknotin : ∀ p ∈ c.items, p.1 ≠ key := assocFind_eq_none.1 hf
      have hkeynotin : ∀ x ∈ c.evictList, x.2.key ≠ key := by
        intro x hx hxk
        exact hknotin (x.2.key, x.1) (hOut _ (List.mem_map.2 ⟨x, hx, rfl⟩)) hxk
      refine ⟨c.nextId, ?_, ?_⟩ <;> simp only [add, hf] <;> split <;>
        rename_i hcond
      · have hlne : c.evictList ≠ [] := by
          intro h0
          rw [h0] at hIL
          simp only [List.length_nil] at hIL
          simp only [List.length_cons, hIL] at hcond
          omega
        cases hl : c.evictList with
        | nil => exact absurd hl hlne
        | cons b lt =>
            have hc1 := inv_push v (now + ttl)
              ⟨hIds, hKeys, hLt, hIn, hOut, hIKeys, hLen⟩ hf
            rw [hl] at hc1
            have hg2 : ((c.nextId,
                (⟨key, v, now + ttl⟩ : Entry KT VT)) :: b :: lt).getLast? =
                some ((b :: lt).getLast (List.cons_ne_nil b lt)) := by
              rw [List.getLast?_cons_cons]
              exact List.getLast?_eq_getLast_of_ne_nil _
            obtain ⟨_, _, _, _, hIt⟩ := removeOldest_spec hc1 hg2
            rw [hIt]
            have hek : ((b :: lt).getLast
                (List.cons_ne_nil b lt)).2.key ≠ key := by
              apply hkeynotin
              rw [hl]
              exact List.getLast_mem _
            have hbeq : (key == ((b :: lt).getLast
                (List.cons_ne_nil b lt)).2.key) = false := by
              simp only [beq_eq_false_iff_ne, ne_eq]
              intro hkk
              exact hek hkk.symm
            simp only [List.filter_cons, hbeq, Bool.not_false, if_pos rfl]
            simp [assocFind]
      · simp [assocFind]
      · have hlne : c.evictList ≠ [] := by
          intro h0
          rw [h0] at hIL
          simp only [List.length_nil] at hIL
          simp only [List.length_cons, hIL] at hcond
          omega
        cases hl : c.evictList with
        | nil => exact absurd hl hlne
        | cons b lt =>
            have hc1 := inv_push v (now + ttl)
              ⟨hIds, hKeys, hLt, hIn, hOut, hIKeys, hLen⟩ hf
            rw [hl] at hc1
            have hg2 : ((c.nextId,
                (⟨key, v, now + ttl⟩ : Entry KT VT)) :: b :: lt).getLast? =
                some ((b :: lt).getLast (List.cons_ne_nil b lt)) := by
              rw [List.getLast?_cons_cons]
              exact List.getLast?_eq_getLast_of_ne_nil _
            obtain ⟨hEl2, _, _, _, _⟩ := removeOldest_spec hc1 hg2
            rw [hEl2, List.dropLast_cons_of_ne_nil (List.cons_ne_nil b lt)]
            simp [findNode]
      · simp [findNode]

/-! ### deleteExpired: exact description -/

/-- The node holding key `k`, if any (unique under the invariant). -/
def findByKey (k : KT) :
    List (Nat × Entry KT VT) → Option (Nat × Entry KT VT)
  | [] => none
  | p :: rest => if p.2.key = k then some p else findByKey k rest

theorem findByKey_mem {k : KT} {p : Nat × Entry KT VT}
    {l : List (Nat × Entry KT VT)} (h : findByKey k l = some p) :
    p ∈ l ∧ p.2.key = k := by
  induction l with
  | nil => simp [findByKey] at h
  | cons q rest ih =>
      by_cases hq : q.2.key = k
      · simp only [findByKey, if_pos hq] at h
        have hqp : q = p := Option.some_inj.1 h
        subst hqp
        exact ⟨List.mem_cons_self _ _, hq⟩
      · simp only [findByKey, if_neg hq] at h
        exact ⟨List.mem_cons_of_mem _ (ih h).1, (ih h).2⟩

theorem findByKey_of_mem {k : KT} {p : Nat × Entry KT VT}
    {l : List (Nat × Entry KT VT)}
    (hnd : (l.map (fun e => e.2.key)).Nodup) (h : p ∈ l)
    (hk : p.2.key = k) : findByKey k l = some p := by
  induction l with
  | nil => simp at h
  | cons q rest ih =>
      simp only [List.map_cons, List.nodup_cons] at hnd
      rcases List.mem_cons.1 h with heq | h'
      · rw [heq] at hk ⊢
        simp [findByKey, hk]
      · have hq : q.2.key ≠ k := by
          intro he
          apply hnd.1
          rw [he, ← hk]
          exact List.mem_map.2 ⟨p, h', rfl⟩
        simp only [findByKey, if_neg hq]
        exact ih hnd.2 h'

theorem findByKey_eq_none {k : KT} {l : List (Nat × Entry KT VT)} :
    findByKey k l = none ↔ ∀ p ∈ l, p.2.key ≠ k := by
  induction l with
  | nil => simp [findByKey]
  | cons q rest ih =>
      by_cases hq : q.2.key = k <;> simp [findByKey, hq, ih]

theorem filterMap_ite {α β : Type} (p : α → Prop) [DecidablePred p]
    (f : α → β) (l : List α) :
    l.filterMap (fun a => if p a then some (f a) else none) =
      (l.filter (fun a => decide (p a))).map f := by
  induction l with
  | nil => rfl
  | cons a rest ih =>
      by_cases hp : p a <;>
        simp [List.filterMap_cons, List.filter_cons, hp, ih]

theorem deleteExpiredAux_spec (now : Int) (ks : List KT)
    {c : CacheState KT VT} (hc : Inv c) (hks : ks.Nodup) :
    (deleteExpiredAux now ks c).1.evictList =
      c.evictList.filter (fun e =>
        !(decide (e.2.key ∈ ks) && decide (now > e.2.expiresAt))) ∧
    (deleteExpiredAux now ks c).2 =
      ks.filterMap (fun k =>
        match findByKey k c.evictList with
        | some e =>
            if now > e.2.expiresAt then some (k, e.2.value) else none
        | none => none) := by
  induction ks generalizing c with
  | nil =>
      simp [deleteExpiredAux]
  | cons k ks ih =>
      rcases List.nodup_cons.1 hks with ⟨hknotin, hksnd⟩
      obtain ⟨hIds, hKeys, hLt, hIn, hOut, hIKeys, hLen⟩ := hc
      simp only [deleteExpiredAux]
      cases hf : assocFind k c.items with
      | none =>
          have hkeynot : ∀ x ∈ c.evictList, x.2.key ≠ k := by
            intro x hx hxk
            exact (assocFind_eq_none.1 hf) (x.2.key, x.1)
              (hOut _ (List.mem_map.2 ⟨x, hx, rfl⟩)) hxk
          have hfb : findByKey k c.evictList = none :=
            findByKey_eq_none.2 hkeynot
          obtain ⟨ihEl, ihCb⟩ :=
            ih ⟨hIds, hKeys, hLt, hIn, hOut, hIKeys, hLen⟩ hksnd
          refine ⟨?_, ?_⟩
          · rw [ihEl]
            apply List.filter_congr
            intro e he
            have hne : e.2.key ≠ k := hkeynot e he
            simp [hne]
          · rw [ihCb, List.filterMap_cons, hfb]
      | some id =>
          have hmkid : (k, id) ∈ keyIdPairs c := hIn _ (assocFind_mem hf)
          rcases List.mem_map.1 hmkid with ⟨x, hx, hxp⟩
          have hx1 : x.1 = id := congrArg Prod.snd hxp
          have hxk : x.2.key = k := congrArg Prod.fst hxp
          have hmem : (id, x.2) ∈ c.evictList := by
            rw [← hx1]
            exact hx
          have hn : findNode id c.evictList = some x.2 :=
            findNode_of_mem hIds hmem
          have hfb : findByKey k c.evictList = some (id, x.2) :=
            findByKey_of_mem hKeys hmem hxk
          dsimp only
          rw [hn]
          dsimp only
          by_cases hex : now > x.2.expiresAt
          · rw [if_pos hex]
            have hc1 : Inv (removeElement c (id, x.2)).1 :=
              inv_removeElement
                ⟨hIds, hKeys, hLt, hIn, hOut, hIKeys, hLen⟩ hmem
            obtain ⟨ihEl, ihCb⟩ := ih hc1 hksnd
            dsimp only
            constructor
            · rw [ihEl]
              show ((c.evictList.filter
                  (fun p => !(p.1 == id))).filter _) = _
              rw [List.filter_filter]
              apply List.filter_congr
              intro e he
              by_cases heq : e = (id, x.2)
              · rw [heq]
                simp [hxk, hex]
              · have hne1 : e.1 ≠ id := fun h1 =>
                  heq (List.inj_on_of_nodup_map hIds he hmem h1)
                have hnek : e.2.key ≠ k := fun hk2 =>
                  heq (List.inj_on_of_nodup_map hKeys he hmem
                    (by rw [hk2, hxk]))
                simp [hne1, hnek]
            · rw [ihCb, List.filterMap_cons, hfb]
              dsimp only
              rw [if_pos hex]
              show (x.2.key, x.2.value) :: _ = (k, x.2.value) :: _
              rw [hxk]
              congr 1
              apply List.filterMap_congr
              intro k2 hk2
              have hk2nek : k2 ≠ k := fun h => hknotin (h ▸ hk2)
              cases hfb2 : findByKey k2 c.evictList with
              | none =>
                  have hnone : findByKey k2
                      (removeElement c (id, x.2)).1.evictList = none := by
                    apply findByKey_eq_none.2
                    intro p hp
                    exact findByKey_eq_none.1 hfb2 p (List.mem_filter.1 hp).1
                  rw [hnone]
              | some e2 =>
                  obtain ⟨he2mem, he2k⟩ := findByKey_mem hfb2
                  have he2ne : e2 ≠ (id, x.2) := fun h =>
                    hk2nek (by rw [← he2k, h, hxk])
                  have he21 : e2.1 ≠ id := fun h1 =>
                    he2ne (List.inj_on_of_nodup_map hIds he2mem hmem h1)
                  have hsome : findByKey k2
                      (removeElement c (id, x.2)).1.evictList = some e2 := by
                    apply findByKey_of_mem
                    · exact List.Nodup.sublist
                        (List.Sublist.map _ (List.filter_sublist _)) hKeys
                    · exact List.mem_filter.2 ⟨he2mem, by simp [he21]⟩
                    · exact he2k
                  rw [hsome]
          · rw [if_neg hex]
            obtain ⟨ihEl, ihCb⟩ :=
              ih ⟨hIds, hKeys, hLt, hIn, hOut, hIKeys, hLen⟩ hksnd
            constructor
            · rw [ihEl]
              apply List.filter_congr
              intro e he
              by_cases heq : e = (id, x.2)
              · rw [heq]
                simp [hxk, hex, hknotin]
              · have hnek : e.2.key ≠ k := fun hk2 =>
                  heq (List.inj_on_of_nodup_map hKeys he hmem
                    (by rw [hk2, hxk]))
                simp [hnek]
            · rw [ihCb, List.filterMap_cons, hfb]
              dsimp only
              rw [if_neg hex]

theorem deleteExpired_eqs {c : CacheState KT VT} (hc : Inv c) (now : Int) :
    (deleteExpired c now).1.evictList =
      c.evictList.filter (fun e => !(decide (now > e.2.expiresAt))) ∧
    (deleteExpired c now).2 =
      (c.evictList.reverse.filter
        (fun e => decide (now > e.2.expiresAt))).map
        (fun e => (e.2.key, e.2.value)) := by
  obtain ⟨hIds, hKeys, hLt, hIn, hOut, hIKeys, hLen⟩ := hc
  have hksnd : (keysOf c).Nodup := by
    unfold keysOf
    exact List.nodup_reverse.2 hKeys
  obtain ⟨hEl, hCb⟩ := deleteExpiredAux_spec now (keysOf c)
    ⟨hIds, hKeys, hLt, hIn, hOut, hIKeys, hLen⟩ hksnd
  constructor
  · rw [show deleteExpired c now =
        deleteExpiredAux now (keysOf c) c from rfl, hEl]
    apply List.filter_congr
    intro e he
    have hmem : e.2.key ∈ keysOf c := by
      unfold keysOf
      rw [List.mem_reverse]
      exact List.mem_map.2 ⟨e, he, rfl⟩
    simp [hmem]
  · rw [show deleteExpired c now =
        deleteExpiredAux now (keysOf c) c from rfl, hCb]
    unfold keysOf
    rw [← List.map_reverse, List.filterMap_map]
    have hcong : ∀ e ∈ c.evictList.reverse,
        ((fun k => match findByKey k c.evictList with
          | some e2 =>
              if now > e2.2.expiresAt then some (k, e2.2.value) else none
          | none => none) ∘ (fun e : Nat × Entry KT VT => e.2.key)) e =
        (fun e : Nat × Entry KT VT =>
          if now > e.2.expiresAt then some (e.2.key, e.2.value) else none)
            e := by
      intro e he
      rw [List.mem_reverse] at he
      show (match findByKey e.2.key c.evictList with
        | some e2 =>
            if now > e2.2.expiresAt then some (e.2.key, e2.2.value) else none
        | none => none) = _
      rw [findByKey_of_mem hKeys he rfl]
    rw [List.filterMap_congr hcong, filterMap_ite]

/-! ### Callback completeness: the callbacks of an operation are exactly the
entries whose nodes left the eviction list -/

theorem fst_mem_map_of_mem {e : Nat × Entry KT VT}
    {l : List (Nat × Entry KT VT)} (h : e ∈ l) :
    e.1 ∈ l.map (fun p => p.1) :=
  List.mem_map.2 ⟨e, h, rfl⟩

theorem filter_departed_eq_nil {l : List (Nat × Entry KT VT)}
    {ids2 : List Nat} (h : ∀ e ∈ l, e.1 ∈ ids2) :
    l.filter (fun e => !(decide (e.1 ∈ ids2))) = [] := by
  rw [List.filter_eq_nil_iff]
  intro a ha
  simp [h a ha]

theorem filter_departed_eq_singleton {l : List (Nat × Entry KT VT)}
    {ids2 : List Nat} {e : Nat × Entry KT VT}
    (hnd : (l.map (fun p => p.1)).Nodup) (he : e ∈ l)
    (hiff : ∀ x ∈ l, (x.1 ∈ ids2 ↔ x ≠ e)) :
    l.filter (fun x => !(decide (x.1 ∈ ids2))) = [e] := by
  apply filter_eq_singleton (List.Nodup.of_map _ hnd) he
  intro x hx
  constructor
  · intro hpx
    by_contra hne
    have hmem : x.1 ∈ ids2 := (hiff x hx).2 hne
    simp [hmem] at hpx
  · intro hxe
    have hmem : x.1 ∉ ids2 := fun hmem => ((hiff x hx).1 hmem) hxe
    simp [hmem]

theorem mem_dropLast_iff {l : List (Nat × Entry KT VT)}
    {eb : Nat × Entry KT VT}
    (hnd : (l.map (fun p => p.1)).Nodup) (hg : l.getLast? = some eb) :
    ∀ x ∈ l, (x.1 ∈ l.dropLast.map (fun p => p.1) ↔ x ≠ eb) := by
  intro x hx
  have hdl : l.dropLast ++ [eb] = l := List.dropLast_append_getLast? _ hg
  have hnd2 : ((l.dropLast ++ [eb]).map (fun p => p.1)).Nodup := by
    rw [hdl]
    exact hnd
  rw [List.map_append] at hnd2
  rcases List.nodup_append.1 hnd2 with ⟨_, _, hdisj⟩
  constructor
  · intro hmem hxe
    rw [hxe] at hmem
    exact hdisj hmem (by simp)
  · intro hxe
    have hx2 : x ∈ l.dropLast ++ [eb] := by
      rw [hdl]
      exact hx
    rcases List.mem_append.1 hx2 with hin | hin
    · exact fst_mem_map_of_mem hin
    · simp at hin
      exact absurd hin hxe

theorem Get_evictList_perm (c : CacheState KT VT) (now : Int) (key : KT) :
    ((Get c now key).1.evictList).Perm c.evictList := by
  cases hf : assocFind key c.items with
  | none =>
      simp only [Get, hf]
      exact List.Perm.refl _
  | some id =>
      cases hn : findNode id c.evictList with
      | none =>
          simp only [Get, hf, hn]
          exact List.Perm.refl _
      | some ent =>
          simp only [Get, hf, hn]
          split
          · exact List.Perm.refl _
          · exact moveToFrontBy_perm id c.evictList

theorem removeOldest_callback_perm {c : CacheState KT VT} (hc : Inv c) :
    ((removeOldest c).2).Perm
      ((c.evictList.filter (fun e => !(decide (e.1 ∈
        (removeOldest c).1.evictList.map (fun p => p.1))))).map
        (fun e => (e.2.key, e.2.value))) := by
  have hIds := hc.1
  cases hg : c.evictList.getLast? with
  | none =>
      simp only [removeOldest, hg]
      rw [filter_departed_eq_nil (fun e he => fst_mem_map_of_mem he)]
      simp
  | some eb =>
      have heb := mem_of_getLast?_eq_some hg
      obtain ⟨hEl, hCb, _, _, _⟩ := removeOldest_spec hc hg
      rw [hCb, hEl]
      rw [filter_departed_eq_singleton hIds heb (mem_dropLast_iff hIds hg)]
      exact List.Perm.refl _

theorem Remove_callback_perm {c : CacheState KT VT} (hc : Inv c) (key : KT) :
    ((Remove c key).2.2).Perm
      ((c.evictList.filter (fun e => !(decide (e.1 ∈
        (Remove c key).1.evictList.map (fun p => p.1))))).map
        (fun e => (e.2.key, e.2.value))) := by
  have hIds := hc.1
  cases hf : assocFind key c.items with
  | none =>
      simp only [Remove, hf]
      rw [filter_departed_eq_nil (fun e he => fst_mem_map_of_mem he)]
      simp
  | some id =>
      cases hn : findNode id c.evictList with
      | none =>
          simp only [Remove, hf, hn]
          rw [filter_departed_eq_nil (fun e he => fst_mem_map_of_mem he)]
          simp
      | some ent =>
          have hmem := findNode_mem hn
          simp only [Remove, hf, hn, removeElement]
          have hiff : ∀ x ∈ c.evictList,
              (x.1 ∈ (c.evictList.filter
                (fun p => !(p.1 == id))).map (fun p => p.1) ↔
                x ≠ (id, ent)) := by
            intro x hx
            constructor
            · intro hxm hxe
              rcases List.mem_map.1 hxm with ⟨y, hy, hy1⟩
              rcases List.mem_filter.1 hy with ⟨_, hy2⟩
              rw [hxe] at hy1
              simp at hy2
              exact hy2 hy1
            · intro hxe
              have hx1 : x.1 ≠ id := fun h1 =>
                hxe (List.inj_on_of_nodup_map hIds hx hmem h1)
              exact fst_mem_map_of_mem
                (List.mem_filter.2 ⟨hx, by simp [hx1]⟩)
          rw [filter_departed_eq_singleton hIds hmem hiff]
          exact List.Perm.refl _

theorem add_callback_perm {c : CacheState KT VT} (hc : Inv c) (now : Int)
    (key : KT) (v : VT) (ttl : Int) :
    ((add c now key v ttl).2.2).Perm
      ((c.evictList.filter (fun e => !(decide (e.1 ∈
        (add c now key v ttl).1.evictList.map (fun p => p.1))))).map
        (fun e => (e.2.key, e.2.value))) := by
  have hIL := hc.items_length
  obtain ⟨hIds, hKeys, hLt, hIn, hOut, hIKeys, hLen⟩ := hc
  cases hf : assocFind key c.items with
  | some id =>
      simp only [add, hf]
      have hids : (updateNode id v (now + ttl)
          (moveToFrontBy id c.evictList)).map (fun p => p.1) =
          (moveToFrontBy id c.evictList).map (fun p => p.1) :=
        updateNode_map_fst _ _ _ _
      have hmm : ∀ e ∈ c.evictList, e.1 ∈ (updateNode id v (now + ttl)
          (moveToFrontBy id c.evictList)).map (fun p => p.1) := by
        intro e he
        rw [hids]
        exact ((moveToFrontBy_perm id c.evictList).map
          (fun p => p.1)).symm.mem_iff.1 (fst_mem_map_of_mem he)
      rw [filter_departed_eq_nil hmm]
      simp
  | none =>
      simp only [add, hf]
      split
      · rename_i hcond
        have hlne : c.evictList ≠ [] := by
          intro h0
          rw [h0] at hIL
          simp only [List.length_nil] at hIL
          simp only [List.length_cons, hIL] at hcond
          omega
        rw [List.length_cons] at hcond
        cases hl : c.evictList with
        | nil => exact absurd hl hlne
        | cons b lt =>
            rw [hl] at hIds hLt
            have hc1 := inv_push v (now + ttl)
              ⟨(hl ▸ hIds : _), hKeys, (hl ▸ hLt : _),
                hIn, hOut, hIKeys, hLen⟩ hf
            rw [hl] at hc1
            have hg : (b :: lt).getLast? =
                some ((b :: lt).getLast (List.cons_ne_nil b lt)) :=
              List.getLast?_eq_getLast_of_ne_nil _
            have hg2 : ((c.nextId,
                (⟨key, v, now + ttl⟩ : Entry KT VT)) :: b :: lt).getLast? =
                some ((b :: lt).getLast (List.cons_ne_nil b lt)) := by
              rw [List.getLast?_cons_cons]
              exact hg
            obtain ⟨hEl, hCb, _, _, _⟩ := removeOldest_spec hc1 hg2
            rw [hCb, hEl]
            rw [List.dropLast_cons_of_ne_nil (List.cons_ne_nil b lt)]
            have hbase := mem_dropLast_iff hIds hg
            have heb : (b :: lt).getLast (List.cons_ne_nil b lt) ∈
                b :: lt := List.getLast_mem _
            have hiff : ∀ x ∈ b :: lt,
                (x.1 ∈ ((c.nextId,
                    (⟨key, v, now + ttl⟩ : Entry KT VT)) ::
                    (b :: lt).dropLast).map (fun p => p.1) ↔
                  x ≠ (b :: lt).getLast (List.cons_ne_nil b lt)) := by
              intro x hx
              rw [List.map_cons]
              constructor
              · intro hxm
                rcases List.mem_cons.1 hxm with hxm | hxm
                · exact absurd hxm (Nat.ne_of_lt (hLt x hx))
                · exact (hbase x hx).1 hxm
              · intro hxe
                exact List.mem_cons_of_mem _ ((hbase x hx).2 hxe)
            rw [filter_departed_eq_singleton hIds heb hiff]
            exact List.Perm.refl _
      · have hmm : ∀ e ∈ c.evictList, e.1 ∈
            ((c.nextId, (⟨key, v, now + ttl⟩ : Entry KT VT)) ::
              c.evictList).map (fun p => p.1) := by
          intro e he
          rw [List.map_cons]
          exact List.mem_cons_of_mem _ (fst_mem_map_of_mem he)
        rw [filter_departed_eq_nil hmm]
        simp

theorem filter_not_mem_append (l2 l3 : List (Nat × Entry KT VT))
    (hnd : ((l2 ++ l3).map (fun p => p.1)).Nodup) :
    (l2 ++ l3).filter (fun e =>
      !(decide (e.1 ∈ l2.map (fun p => p.1)))) = l3 := by
  rw [List.map_append] at hnd
  rcases List.nodup_append.1 hnd with ⟨_, _, hdisj⟩
  rw [List.filter_append]
  have h1 : l2.filter (fun e =>
      !(decide (e.1 ∈ l2.map (fun p => p.1)))) = [] := by
    rw [List.filter_eq_nil_iff]
    intro a ha
    have hmem := fst_mem_map_of_mem ha
    simp only [decide_eq_true hmem, Bool.not_true]
    exact Bool.false_ne_true
  have h2 : l3.filter (fun e =>
      !(decide (e.1 ∈ l2.map (fun p => p.1)))) = l3 := by
    rw [List.filter_eq_self]
    intro a ha
    have hnot : a.1 ∉ l2.map (fun p => p.1) := fun hmem =>
      hdisj hmem (fst_mem_map_of_mem ha)
    rw [decide_eq_false hnot]
    rfl
  rw [h1, h2, List.nil_append]

theorem removeOldestN_callback_perm {c : CacheState KT VT} (hc : Inv c)
    (k : Nat) (hk : k ≤ c.evictList.length) :
    ((removeOldestN k c).2).Perm
      ((c.evictList.filter (fun e => !(decide (e.1 ∈
        (removeOldestN k c).1.evictList.map (fun p => p.1))))).map
        (fun e => (e.2.key, e.2.value))) := by
  have hIds := hc.1
  obtain ⟨hEl, hCb, _, _⟩ := removeOldestN_spec hc k hk
  rw [hCb, hEl]
  have hfil := filter_not_mem_append
    (c.evictList.take (c.evictList.length - k))
    (c.evictList.drop (c.evictList.length - k))
    (by rw [List.take_append_drop]; exact hIds)
  rw [List.take_append_drop] at hfil
  rw [hfil, List.take_reverse, List.map_reverse]
  exact List.reverse_perm _

theorem deleteExpired_callback_perm {c : CacheState KT VT} (hc : Inv c)
    (now : Int) :
    ((deleteExpired c now).2).Perm
      ((c.evictList.filter (fun e => !(decide (e.1 ∈
        (deleteExpired c now).1.evictList.map (fun p => p.1))))).map
        (fun e => (e.2.key, e.2.value))) := by
  have hIds := hc.1
  obtain ⟨hEl, hCb⟩ := deleteExpired_eqs hc now
  rw [hCb, hEl]
  have hfil : c.evictList.filter (fun e => !(decide (e.1 ∈
      (c.evictList.filter (fun e => !(decide (now > e.2.expiresAt)))).map
        (fun p => p.1)))) =
      c.evictList.filter (fun e => decide (now > e.2.expiresAt)) := by
    apply List.filter_congr
    intro x hx
    by_cases hex : now > x.2.expiresAt
    · have hnot : x.1 ∉ (c.evictList.filter
          (fun e => !(decide (now > e.2.expiresAt)))).map
            (fun p => p.1) := by
        intro hmem
        rcases List.mem_map.1 hmem with ⟨y, hy, hy1⟩
        rcases List.mem_filter.1 hy with ⟨hyl, hy2⟩
        have hyx : y = x := List.inj_on_of_nodup_map hIds hyl hx hy1
        rw [hyx] at hy2
        simp [hex] at hy2
      simp [hnot, hex]
    · have hmem : x.1 ∈ (c.evictList.filter
          (fun e => !(decide (now > e.2.expiresAt)))).map
            (fun p => p.1) :=
        fst_mem_map_of_mem (List.mem_filter.2 ⟨hx, by simp [hex]⟩)
      simp [hmem, hex]
  rw [hfil, List.filter_reverse, List.map_reverse]
  exact List.reverse_perm _

theorem purge_callback_perm {c : CacheState KT VT} (hc : Inv c) :
    ((purge c).2).Perm
      ((c.evictList.filter (fun e => !(decide (e.1 ∈
        (purge c).1.evictList.map (fun p => p.1))))).map
        (fun e => (e.2.key, e.2.value))) := by
  have hIds := hc.1
  have hperm := hc.items_perm
  simp only [purge, List.map_nil]
  have hfil : c.evictList.filter (fun e =>
      !(decide (e.1 ∈ ([] : List Nat)))) = c.evictList := by
    rw [List.filter_eq_self]
    intro a _
    simp
  rw [hfil]
  have step1 := hperm.filterMap (fun p =>
    (findNode p.2 c.evictList).map (fun ent => (p.1, ent.value)))
  have step2 : (keyIdPairs c).filterMap (fun p =>
      (findNode p.2 c.evictList).map (fun ent => (p.1, ent.value))) =
      c.evictList.map (fun e => (e.2.key, e.2.value)) := by
    unfold keyIdPairs
    rw [List.filterMap_map]
    have hcong : ∀ e ∈ c.evictList,
        ((fun p : KT × Nat =>
          (findNode p.2 c.evictList).map (fun ent => (p.1, ent.value))) ∘
          (fun e : Nat × Entry KT VT => (e.2.key, e.1))) e =
        some (e.2.key, e.2.value) := by
      intro e he
      show (findNode e.1 c.evictList).map
        (fun ent => (e.2.key, ent.value)) = _
      rw [findNode_of_mem hIds he]
      rfl
    rw [List.filterMap_congr hcong]
    exact congrFun (List.filterMap_eq_map
      (fun e : Nat × Entry KT VT => (e.2.key, e.2.value))) c.evictList
  exact step2 ▸ step1

/-! ### The doubly linked list of `list.go`, at the level of its ownership
guards: a node handle carries the id (address) of the list it belongs to
(`e.list`), and every public operation first checks it against the target
list. -/

/-- An `Element` handle: node address, the `list` back-reference (`none`
models a nil / detached back-reference), and the stored entry. -/
structure LElement (KT VT : Type) where
  id : Nat
  owner : Option Nat
  value : Entry KT VT
  deriving DecidableEq, Repr

/-- A `List`: its own address, the non-sentinel ring nodes in front-to-back
order, and the maintained `len` counter. -/
structure LList (KT VT : Type) where
  lid : Nat
  elems : List (LElement KT VT)
  len : Int
  deriving DecidableEq, Repr

/-- Insert `x` immediately before the node with id `mid`. -/
def insertBeforeId (mid : Nat) (x : LElement KT VT) :
    List (LElement KT VT) → List (LElement KT VT)
  | [] => [x]
  | y :: rest =>
      if y.id = mid then x :: y :: rest else y :: insertBeforeId mid x rest

/-- Insert `x` immediately after the node with id `mid`. -/
def insertAfterId (mid : Nat) (x : LElement KT VT) :
    List (LElement KT VT) → List (LElement KT VT)
  | [] => [x]
  | y :: rest =>
      if y.id = mid then y :: x :: rest else y :: insertAfterId mid x rest

/-- `Remove` (`list.go`): unlink only when `e.list == l`. -/
def LRemove (l : LList KT VT) (e : LElement KT VT) : LList KT VT :=
  if e.owner = some l.lid then
    { l with
        elems := l.elems.filter (fun x => !(x.id == e.id))
        len := l.len - 1 }
  else l

/-- `MoveToFront` (`list.go`): no-op when `e.list != l` or `e` is already the
front node. -/
def LMoveToFront (l : LList KT VT) (e : LElement KT VT) : LList KT VT :=
  if e.owner ≠ some l.lid ∨
      (l.elems.head?.map (fun x => x.id)) = some e.id then l
  else
    { l with elems := e :: l.elems.filter (fun x => !(x.id == e.id)) }

/-- `MoveToBack` (`list.go`). -/
def LMoveToBack (l : LList KT VT) (e : LElement KT VT) : LList KT VT :=
  if e.owner ≠ some l.lid ∨
      (l.elems.getLast?.map (fun x => x.id)) = some e.id then l
  else
    { l with elems := l.elems.filter (fun x => !(x.id == e.id)) ++ [e] }

/-- `MoveBefore` (`list.go`): no-op when `e.list != l`, `e == mark`, or
`mark.list != l`. -/
def LMoveBefore (l : LList KT VT) (e mark : LElement KT VT) : LList KT VT :=
  if e.owner ≠ some l.lid ∨ e.id = mark.id ∨ mark.owner ≠ some l.lid then l
  else
    { l with elems := (insertBeforeId mark.id e
        (l.elems.filter (fun x => !(x.id == e.id)))) }

/-- `MoveAfter` (`list.go`). -/
def LMoveAfter (l : LList KT VT) (e mark : LElement KT VT) : LList KT VT :=
  if e.owner ≠ some l.lid ∨ e.id = mark.id ∨ mark.owner ≠ some l.lid then l
  else
    { l with elems := (insertAfterId mark.id e
        (l.elems.filter (fun x => !(x.id == e.id)))) }

/-- `InsertBefore` (`list.go`): returns `nil` and does not modify the list
when `mark.list != l`; `newId` models the fresh node allocation. -/
def LInsertBefore (l : LList KT VT) (v : Entry KT VT)
    (mark : LElement KT VT) (newId : Nat) :
    LList KT VT × Option (LElement KT VT) :=
  if mark.owner ≠ some l.lid then (l, none)
  else
    ({ l with
        elems := insertBeforeId mark.id ⟨newId, some l.lid, v⟩ l.elems
        len := l.len + 1 },
     some ⟨newId, some l.lid, v⟩)

/-- `InsertAfter` (`list.go`). -/
def LInsertAfter (l : LList KT VT) (v : Entry KT VT)
    (mark : LElement KT VT) (newId : Nat) :
    LList KT VT × Option (LElement KT VT) :=
  if mark.owner ≠ some l.lid then (l, none)
  else
    ({ l with
        elems := insertAfterId mark.id ⟨newId, some l.lid, v⟩ l.elems
        len := l.len + 1 },
     some ⟨newId, some l.lid, v⟩)

end Lru

/-- C4: `add` (and therefore `Add`/`AddWithTTL`, which are this function) on
a key already present returns `evicted = false`, fires no eviction callback,
rewrites that key's entry in place to the new value with
`expiresAt = now + ttl`, moves the key's node to the front of the eviction
list, leaves the map untouched and `Len` (and the list length) unchanged —
with no condition on the old entry's expiry, so also when it was already
expired. -/
theorem add_existing_refreshes {KT VT : Type} [DecidableEq KT]
    {c : Lru.CacheState KT VT} (h : Lru.Reachable c) {key : KT} {id : Nat}
    (hf : Lru.assocFind key c.items = some id) (now : Int) (v : VT)
    (ttl : Int) :
    (Lru.add c now key v ttl).2.1 = false ∧
    (Lru.add c now key v ttl).2.2 = [] ∧
    (Lru.add c now key v ttl).1.evictList.head? =
      some (id, ⟨key, v, now + ttl⟩) ∧
    Lru.findNode id (Lru.add c now key v ttl).1.evictList =
      some ⟨key, v, now + ttl⟩ ∧
    (Lru.add c now key v ttl).1.items = c.items ∧
    Lru.Len (Lru.add c now key v ttl).1 = Lru.Len c ∧
    (Lru.add c now key v ttl).1.evictList.length = c.evictList.length := by
  have hc := Lru.reachable_inv h
  obtain ⟨rest, hEl, hRest⟩ := Lru.add_existing_shape hc hf now v ttl
  refine ⟨?_, ?_, ?_, ?_, ?_, ?_, ?_⟩
  · simp only [Lru.add, hf]
  · simp only [Lru.add, hf]
  · rw [hEl]
    rfl
  · rw [hEl]
    simp [Lru.findNode]
  · simp only [Lru.add, hf]
  · simp only [Lru.Len, Lru.add, hf]
  · simp only [Lru.add, hf]
    rw [Lru.length_updateNode, Lru.length_moveToFrontBy]

/-- Witness for C4: refresh key 1 (present after one add) on a capacity-2
cache. -/
theorem add_existing_refreshes_witness :
    Lru.assocFind 1 (Lru.applyOp (Lru.Op.add 0 1 5)
        (Lru.newLRU 2 100 : Lru.CacheState Nat Nat)).1.items = some 0 ∧
    ((Lru.add (Lru.applyOp (Lru.Op.add 0 1 5)
          (Lru.newLRU 2 100 : Lru.CacheState Nat Nat)).1 3 1 9 50).2.1 =
        false ∧
      (Lru.add (Lru.applyOp (Lru.Op.add 0 1 5)
          (Lru.newLRU 2 100 : Lru.CacheState Nat Nat)).1 3 1 9 50).2.2 =
        [] ∧
      (Lru.add (Lru.applyOp (Lru.Op.add 0 1 5)
          (Lru.newLRU 2 100 : Lru.CacheState Nat Nat)).1
            3 1 9 50).1.evictList.head? = some (0, ⟨1, 9, 3 + 50⟩) ∧
      Lru.findNode 0 (Lru.add (Lru.applyOp (Lru.Op.add 0 1 5)
          (Lru.newLRU 2 100 : Lru.CacheState Nat Nat)).1
            3 1 9 50).1.evictList = some ⟨1, 9, 3 + 50⟩ ∧
      (Lru.add (Lru.applyOp (Lru.Op.add 0 1 5)
          (Lru.newLRU 2 100 : Lru.CacheState Nat Nat)).1 3 1 9 50).1.items =
        (Lru.applyOp (Lru.Op.add 0 1 5)
          (Lru.newLRU 2 100 : Lru.CacheState Nat Nat)).1.items ∧
      Lru.Len (Lru.add (Lru.applyOp (Lru.Op.add 0 1 5)
          (Lru.newLRU 2 100 : Lru.CacheState Nat Nat)).1 3 1 9 50).1 =
        Lru.Len (Lru.applyOp (Lru.Op.add 0 1 5)
          (Lru.newLRU 2 100 : Lru.CacheState Nat Nat)).1 ∧
      (Lru.add (Lru.applyOp (Lru.Op.add 0 1 5)
          (Lru.newLRU 2 100 : Lru.CacheState Nat Nat)).1
            3 1 9 50).1.evictList.length =
        (Lru.applyOp (Lru.Op.add 0 1 5)
          (Lru.newLRU 2 100 : Lru.CacheState Nat Nat)).1.evictList.length) :=
  ⟨by decide,
   add_existing_refreshes
     (Lru.Reachable.step (Lru.Op.add 0 1 5) (Lru.Reachable.init 2 100))
     (by decide) 3 9 50⟩

/-- C5: `Get` on a key that is present but expired (`now` strictly after the
entry's `expiresAt`) returns not-found and performs no mutation at all: the
state is returned unchanged, so `Contains` still answers true afterwards and
`Len` is unchanged. -/
theorem get_expired_leaves_entry {KT VT : Type} [DecidableEq KT]
    {c : Lru.CacheState KT VT} {key : KT} (id : Nat) (ent : Lru.Entry KT VT)
    (hf : Lru.assocFind key c.items = some id)
    (hn : Lru.findNode id c.evictList = some ent)
    {now : Int} (hexp : now > ent.expiresAt) :
    Lru.Get c now key = (c, none) ∧
    Lru.Contains (Lru.Get c now key).1 key = true ∧
    Lru.Len (Lru.Get c now key).1 = Lru.Len c := by
  have h1 : Lru.Get c now key = (c, none) := by
    simp only [Lru.Get, hf, hn, if_pos hexp]
  refine ⟨h1, ?_, by rw [h1]⟩
  rw [h1]
  simp [Lru.Contains, hf]

/-- Witness for C5: key 1 added at time 0 with ttl −1 is expired at time 2. -/
theorem get_expired_leaves_entry_witness :
    Lru.assocFind 1 (Lru.applyOp (Lru.Op.addWithTTL 0 1 5 (-1))
        (Lru.newLRU 2 100 : Lru.CacheState Nat Nat)).1.items = some 0 ∧
    Lru.findNode 0 (Lru.applyOp (Lru.Op.addWithTTL 0 1 5 (-1))
        (Lru.newLRU 2 100 : Lru.CacheState Nat Nat)).1.evictList =
      some ⟨1, 5, -1⟩ ∧
    (2 : Int) > (-1 : Int) ∧
    (Lru.Get (Lru.applyOp (Lru.Op.addWithTTL 0 1 5 (-1))
        (Lru.newLRU 2 100 : Lru.CacheState Nat Nat)).1 2 1 =
      ((Lru.applyOp (Lru.Op.addWithTTL 0 1 5 (-1))
        (Lru.newLRU 2 100 : Lru.CacheState Nat Nat)).1, none) ∧
      Lru.Contains (Lru.Get (Lru.applyOp (Lru.Op.addWithTTL 0 1 5 (-1))
        (Lru.newLRU 2 100 : Lru.CacheState Nat Nat)).1 2 1).1 1 = true ∧
      Lru.Len (Lru.Get (Lru.applyOp (Lru.Op.addWithTTL 0 1 5 (-1))
          (Lru.newLRU 2 100 : Lru.CacheState Nat Nat)).1 2 1).1 =
        Lru.Len (Lru.applyOp (Lru.Op.addWithTTL 0 1 5 (-1))
          (Lru.newLRU 2 100 : Lru.CacheState Nat Nat)).1) :=
  ⟨by decide, by decide, by decide,
   get_expired_leaves_entry 0 ⟨1, 5, -1⟩
     (by decide) (by decide) (by decide)⟩

/-- C10: a non-positive per-call ttl passed to `AddWithTTL` is not
normalized — only the constructor clamps its ttl argument to
`noEvictionTTL`: the entry is stored with `expiresAt = now + ttl ≤ now`, so
at every strictly later time `Get` and `Peek` report not-found, while
`Contains` still reports true and the entry still occupies a slot counted by
`Len` (which equals the map size). -/
theorem addWithTTL_nonpositive_ttl {KT VT : Type} [DecidableEq KT]
    {c : Lru.CacheState KT VT} (h : Lru.Reachable c) {ttl : Int}
    (httl : ttl ≤ 0) (now : Int) (key : KT) (v : VT) (s : Int) :
    (Lru.newLRU s ttl : Lru.CacheState KT VT).ttl = Lru.noEvictionTTL ∧
    (∃ id, Lru.assocFind key
            (Lru.AddWithTTL c now key v ttl).1.items = some id ∧
      Lru.findNode id (Lru.AddWithTTL c now key v ttl).1.evictList =
        some ⟨key, v, now + ttl⟩) ∧
    now + ttl ≤ now ∧
    (∀ t : Int, t > now →
      (Lru.Get (Lru.AddWithTTL c now key v ttl).1 t key).2 = none ∧
      Lru.Peek (Lru.AddWithTTL c now key v ttl).1 t key = none) ∧
    Lru.Contains (Lru.AddWithTTL c now key v ttl).1 key = true ∧
    Lru.Len (Lru.AddWithTTL c now key v ttl).1 =
      (Lru.AddWithTTL c now key v ttl).1.items.length := by
  have hc := Lru.reachable_inv h
  obtain ⟨id, hfi, hni⟩ := Lru.add_stores_entry hc now key v ttl
  have hr : Lru.Reachable (Lru.AddWithTTL c now key v ttl).1 :=
    Lru.Reachable.step (Lru.Op.addWithTTL now key v ttl) h
  have hc2 := Lru.reachable_inv hr
  refine ⟨by simp [Lru.newLRU, if_pos httl], ⟨id, hfi, hni⟩, by omega,
    ?_, ?_, ?_⟩
  · intro t ht
    have hexp : t > (⟨key, v, now + ttl⟩ : Lru.Entry KT VT).expiresAt := by
      show t > now + ttl
      omega
    constructor
    · show (Lru.Get (Lru.add c now key v ttl).1 t key).2 = none
      simp only [Lru.Get, hfi, hni, if_pos hexp]
    · show Lru.Peek (Lru.add c now key v ttl).1 t key = none
      simp only [Lru.Peek, hfi, hni, if_pos hexp]
  · show (Lru.assocFind key (Lru.add c now key v ttl).1.items).isSome = true
    rw [hfi]
    rfl
  · have h1 := hc2.items_length
    have h2 : (Lru.AddWithTTL c now key v ttl).1.listLen =
        (Lru.AddWithTTL c now key v ttl).1.evictList.length :=
      hc2.2.2.2.2.2.2
    unfold Lru.Len
    omega

/-- Witness for C10: ttl −5 on a fresh capacity-2 cache at time 0. -/
theorem addWithTTL_nonpositive_ttl_witness :
    (-5 : Int) ≤ 0 ∧
    ((Lru.newLRU 7 (-5) : Lru.CacheState Nat Nat).ttl = Lru.noEvictionTTL ∧
    (∃ id, Lru.assocFind 3
            (Lru.AddWithTTL (Lru.newLRU 2 100 : Lru.CacheState Nat Nat)
              0 3 4 (-5)).1.items = some id ∧
      Lru.findNode id (Lru.AddWithTTL (Lru.newLRU 2 100 :
            Lru.CacheState Nat Nat) 0 3 4 (-5)).1.evictList =
        some ⟨3, 4, 0 + (-5)⟩) ∧
    (0 : Int) + (-5) ≤ 0 ∧
    (∀ t : Int, t > 0 →
      (Lru.Get (Lru.AddWithTTL (Lru.newLRU 2 100 :
          Lru.CacheState Nat Nat) 0 3 4 (-5)).1 t 3).2 = none ∧
      Lru.Peek (Lru.AddWithTTL (Lru.newLRU 2 100 :
          Lru.CacheState Nat Nat) 0 3 4 (-5)).1 t 3 = none) ∧
    Lru.Contains (Lru.AddWithTTL (Lru.newLRU 2 100 :
        Lru.CacheState Nat Nat) 0 3 4 (-5)).1 3 = true ∧
    Lru.Len (Lru.AddWithTTL (Lru.newLRU 2 100 :
        Lru.CacheState Nat Nat) 0 3 4 (-5)).1 =
      (Lru.AddWithTTL (Lru.newLRU 2 100 :
        Lru.CacheState Nat Nat) 0 3 4 (-5)).1.items.length) :=
  ⟨by decide,
   addWithTTL_nonpositive_ttl (Lru.Reachable.init 2 100) (by decide) 0 3 4 7⟩

/-- C3: on a capacity-2 cache with distinct keys `A`, `B`, `C` and all
entries live, `add A; add B; add C` evicts exactly `A` (reporting
`evicted = true`), leaving `B` and `C`; if a successful `Get A` happens
between `add B` and `add C`, then `add C` evicts `B` instead and `A`
remains — a successful get moves its key to most-recently-used, and capacity
eviction removes the back-of-list (least-recently-used) entry. -/
theorem lru_ordering {KT VT : Type} [DecidableEq KT] (A B C : KT)
    (a b cv : VT) (hAB : A ≠ B) (hAC : A ≠ C) (hBC : B ≠ C) :
    ((Lru.add (Lru.add (Lru.add (Lru.newLRU 2 1 : Lru.CacheState KT VT)
        0 A a 1).1 0 B b 1).1 0 C cv 1).2.2 = [(A, a)] ∧
     (Lru.add (Lru.add (Lru.add (Lru.newLRU 2 1 : Lru.CacheState KT VT)
        0 A a 1).1 0 B b 1).1 0 C cv 1).2.1 = true ∧
     Lru.Contains (Lru.add (Lru.add (Lru.add
        (Lru.newLRU 2 1 : Lru.CacheState KT VT)
        0 A a 1).1 0 B b 1).1 0 C cv 1).1 A = false ∧
     Lru.Contains (Lru.add (Lru.add (Lru.add
        (Lru.newLRU 2 1 : Lru.CacheState KT VT)
        0 A a 1).1 0 B b 1).1 0 C cv 1).1 B = true ∧
     Lru.Contains (Lru.add (Lru.add (Lru.add
        (Lru.newLRU 2 1 : Lru.CacheState KT VT)
        0 A a 1).1 0 B b 1).1 0 C cv 1).1 C = true) ∧
    ((Lru.Get (Lru.add (Lru.add (Lru.newLRU 2 1 : Lru.CacheState KT VT)
        0 A a 1).1 0 B b 1).1 0 A).2 = some a ∧
     (Lru.add (Lru.Get (Lru.add (Lru.add
        (Lru.newLRU 2 1 : Lru.CacheState KT VT)
        0 A a 1).1 0 B b 1).1 0 A).1 0 C cv 1).2.2 = [(B, b)] ∧
     Lru.Contains (Lru.add (Lru.Get (Lru.add (Lru.add
        (Lru.newLRU 2 1 : Lru.CacheState KT VT)
        0 A a 1).1 0 B b 1).1 0 A).1 0 C cv 1).1 A = true ∧
     Lru.Contains (Lru.add (Lru.Get (Lru.add (Lru.add
        (Lru.newLRU 2 1 : Lru.CacheState KT VT)
        0 A a 1).1 0 B b 1).1 0 A).1 0 C cv 1).1 B = false) := by
  refine ⟨⟨?_, ?_, ?_, ?_, ?_⟩, ⟨?_, ?_, ?_, ?_⟩⟩ <;>
    simp [Lru.newLRU, Lru.add, Lru.assocFind, Lru.findNode, Lru.Get,
      Lru.Contains, Lru.removeOldest, Lru.removeElement, Lru.moveToFrontBy,
      Lru.updateNode, hAB, hAC, hBC, Ne.symm hAB, Ne.symm hAC, Ne.symm hBC,
      List.getLast?_cons_cons, List.filter_cons]

/-- Witness for C3 with keys 10, 20, 30 and values 1, 2, 3. -/
theorem lru_ordering_witness :
    ((10 : Nat) ≠ 20 ∧ (10 : Nat) ≠ 30 ∧ (20 : Nat) ≠ 30) ∧
    (((Lru.add (Lru.add (Lru.add (Lru.newLRU 2 1 : Lru.CacheState Nat Nat)
        0 10 1 1).1 0 20 2 1).1 0 30 3 1).2.2 = [(10, 1)] ∧
     (Lru.add (Lru.add (Lru.add (Lru.newLRU 2 1 : Lru.CacheState Nat Nat)
        0 10 1 1).1 0 20 2 1).1 0 30 3 1).2.1 = true ∧
     Lru.Contains (Lru.add (Lru.add (Lru.add
        (Lru.newLRU 2 1 : Lru.CacheState Nat Nat)
        0 10 1 1).1 0 20 2 1).1 0 30 3 1).1 10 = false ∧
     Lru.Contains (Lru.add (Lru.add (Lru.add
        (Lru.newLRU 2 1 : Lru.CacheState Nat Nat)
        0 10 1 1).1 0 20 2 1).1 0 30 3 1).1 20 = true ∧
     Lru.Contains (Lru.add (Lru.add (Lru.add
        (Lru.newLRU 2 1 : Lru.CacheState Nat Nat)
        0 10 1 1).1 0 20 2 1).1 0 30 3 1).1 30 = true) ∧
    ((Lru.Get (Lru.add (Lru.add (Lru.newLRU 2 1 : Lru.CacheState Nat Nat)
        0 10 1 1).1 0 20 2 1).1 0 10).2 = some 1 ∧
     (Lru.add (Lru.Get (Lru.add (Lru.add
        (Lru.newLRU 2 1 : Lru.CacheState Nat Nat)
        0 10 1 1).1 0 20 2 1).1 0 10).1 0 30 3 1).2.2 = [(20, 2)] ∧
     Lru.Contains (Lru.add (Lru.Get (Lru.add (Lru.add
        (Lru.newLRU 2 1 : Lru.CacheState Nat Nat)
        0 10 1 1).1 0 20 2 1).1 0 10).1 0 30 3 1).1 10 = true ∧
     Lru.Contains (Lru.add (Lru.Get (Lru.add (Lru.add
        (Lru.newLRU 2 1 : Lru.CacheState Nat Nat)
        0 10 1 1).1 0 20 2 1).1 0 10).1 0 30 3 1).1 20 = false)) :=
  ⟨⟨by decide, by decide, by decide⟩,
   lru_ordering 10 20 30 1 2 3 (by decide) (by decide) (by decide)⟩

/-- C1: for every reachable cache state (any finite sequence of the public
operations starting from a freshly constructed cache), the keys of the
`items` map are a permutation of the keys of the entries on the eviction
list (so the two key sets coincide), the map entry for each key `k`
dereferences to a node holding `k` that is the unique list node whose entry
key equals `k`, and `Len` equals the size of both structures. -/
theorem bijection_invariant {KT VT : Type} [DecidableEq KT]
    {c : Lru.CacheState KT VT} (h : Lru.Reachable c) :
    ((c.items.map (fun p => p.1)).Perm
        (c.evictList.map (fun e => e.2.key))) ∧
    (∀ k id, Lru.assocFind k c.items = some id →
      ∃ ent, Lru.findNode id c.evictList = some ent ∧ ent.key = k ∧
        ∀ e ∈ c.evictList, e.2.key = k → e = (id, ent)) ∧
    Lru.Len c = c.items.length ∧ Lru.Len c = c.evictList.length := by
  have hc := Lru.reachable_inv h
  obtain ⟨hIds, hKeys, hLt, hIn, hOut, hIKeys, hLen⟩ := Lru.reachable_inv h
  refine ⟨?_, ?_, ?_, ?_⟩
  · have hp := (hc.items_perm).map (fun p => p.1)
    have heq : (Lru.keyIdPairs c).map (fun p => p.1) =
        c.evictList.map (fun e => e.2.key) := by
      unfold Lru.keyIdPairs
      rw [List.map_map]
      rfl
    rw [heq] at hp
    exact hp
  · intro k id hfind
    have hm : (k, id) ∈ Lru.keyIdPairs c := hIn _ (Lru.assocFind_mem hfind)
    rcases List.mem_map.1 hm with ⟨x, hx, hxp⟩
    have hx1 : x.1 = id := congrArg Prod.snd hxp
    have hxk : x.2.key = k := congrArg Prod.fst hxp
    have hmem : (id, x.2) ∈ c.evictList := by
      rw [← hx1]
      exact hx
    refine ⟨x.2, Lru.findNode_of_mem hIds hmem, hxk, ?_⟩
    intro e he hek
    have hex : e = x :=
      List.inj_on_of_nodup_map hKeys he hx (by rw [hek, hxk])
    rw [hex, ← hx1]
  · rw [Lru.Len, hLen, ← hc.items_length]
  · rw [Lru.Len, hLen]

/-- Witness for C1 at the concrete reachable state reached by one `add` on a
fresh cache of capacity 2. -/
theorem bijection_invariant_witness :
    (((Lru.applyOp (Lru.Op.add 0 1 5)
          (Lru.newLRU 2 100 : Lru.CacheState Nat Nat)).1.items.map
            (fun p => p.1)).Perm
        ((Lru.applyOp (Lru.Op.add 0 1 5)
          (Lru.newLRU 2 100 : Lru.CacheState Nat Nat)).1.evictList.map
            (fun e => e.2.key))) ∧
    (∀ k id, Lru.assocFind k (Lru.applyOp (Lru.Op.add 0 1 5)
          (Lru.newLRU 2 100 : Lru.CacheState Nat Nat)).1.items = some id →
      ∃ ent, Lru.findNode id (Lru.applyOp (Lru.Op.add 0 1 5)
          (Lru.newLRU 2 100 : Lru.CacheState Nat Nat)).1.evictList =
            some ent ∧ ent.key = k ∧
        ∀ e ∈ (Lru.applyOp (Lru.Op.add 0 1 5)
          (Lru.newLRU 2 100 : Lru.CacheState Nat Nat)).1.evictList,
            e.2.key = k → e = (id, ent)) ∧
    Lru.Len (Lru.applyOp (Lru.Op.add 0 1 5)
        (Lru.newLRU 2 100 : Lru.CacheState Nat Nat)).1 =
      (Lru.applyOp (Lru.Op.add 0 1 5)
        (Lru.newLRU 2 100 : Lru.CacheState Nat Nat)).1.items.length ∧
    Lru.Len (Lru.applyOp (Lru.Op.add 0 1 5)
        (Lru.newLRU 2 100 : Lru.CacheState Nat Nat)).1 =
      (Lru.applyOp (Lru.Op.add 0 1 5)
        (Lru.newLRU 2 100 : Lru.CacheState Nat Nat)).1.evictList.length :=
  bijection_invariant
    (Lru.Reachable.step (Lru.Op.add 0 1 5) (Lru.Reachable.init 2 100))

/-- C2: on a reachable cache whose capacity is positive, every `add` /
`addWithTTL` call leaves both `Len` and the map size at most the capacity
(which the call does not change), fires at most one eviction, and returns
`evicted = true` exactly when it evicted one entry. -/
theorem add_respects_capacity {KT VT : Type} [DecidableEq KT]
    {c : Lru.CacheState KT VT} (h : Lru.Reachable c) (hpos : c.size > 0)
    (now : Int) (key : KT) (v : VT) (ttl : Int) :
    (Lru.add c now key v ttl).1.size = c.size ∧
    Lru.Len (Lru.add c now key v ttl).1 ≤ c.size ∧
    (Lru.add c now key v ttl).1.items.length ≤ c.size ∧
    (Lru.add c now key v ttl).2.2.length ≤ 1 ∧
    ((Lru.add c now key v ttl).2.1 = true ↔
      (Lru.add c now key v ttl).2.2.length = 1) := by
  have hc := Lru.reachable_inv h
  have hcap := Lru.reachable_cap h
  have hadd := Lru.add_cap hc hcap now key v ttl
  have hev := Lru.add_evictions hc now key v ttl
  have hr : Lru.Reachable (Lru.add c now key v ttl).1 :=
    Lru.Reachable.step (Lru.Op.addWithTTL now key v ttl) h
  have hc2 := Lru.reachable_inv hr
  refine ⟨hadd.1, hadd.2 hpos, ?_, hev.1, hev.2⟩
  have h1 := hc2.items_length
  have h2 : (Lru.add c now key v ttl).1.listLen =
      (Lru.add c now key v ttl).1.evictList.length := hc2.2.2.2.2.2.2
  have h3 := hadd.2 hpos
  unfold Lru.Len at h3
  omega

/-- Witness for C2: a fresh cache of capacity 1, two adds. -/
theorem add_respects_capacity_witness :
    (0 : Nat) < (Lru.newLRU 1 100 : Lru.CacheState Nat Nat).size ∧
    ((Lru.add (Lru.newLRU 1 100 : Lru.CacheState Nat Nat) 0 7 8 100).1.size =
        (Lru.newLRU 1 100 : Lru.CacheState Nat Nat).size ∧
      Lru.Len (Lru.add (Lru.newLRU 1 100 :
          Lru.CacheState Nat Nat) 0 7 8 100).1 ≤
        (Lru.newLRU 1 100 : Lru.CacheState Nat Nat).size ∧
      (Lru.add (Lru.newLRU 1 100 :
          Lru.CacheState Nat Nat) 0 7 8 100).1.items.length ≤
        (Lru.newLRU 1 100 : Lru.CacheState Nat Nat).size ∧
      (Lru.add (Lru.newLRU 1 100 :
          Lru.CacheState Nat Nat) 0 7 8 100).2.2.length ≤ 1 ∧
      ((Lru.add (Lru.newLRU 1 100 :
          Lru.CacheState Nat Nat) 0 7 8 100).2.1 = true ↔
        (Lru.add (Lru.newLRU 1 100 :
          Lru.CacheState Nat Nat) 0 7 8 100).2.2.length = 1)) :=
  ⟨by decide,
   add_respects_capacity (Lru.Reachable.init 1 100) (by decide) 0 7 8 100⟩

/-- C7: `Resize` with `n ≤ 0` returns 0 and changes nothing; with `n > 0` on
a cache currently holding `m = Len` entries it evicts exactly
`max (m - n) 0` entries — the callbacks are the last `max (m - n) 0`
list entries in back-to-front order, i.e. each eviction removes the current
least-recently-used entry — sets the stored capacity to `n`, and returns the
evicted count. -/
theorem resize_spec {KT VT : Type} [DecidableEq KT]
    {c : Lru.CacheState KT VT} (h : Lru.Reachable c) (n : Int) :
    (n ≤ 0 → Lru.Resize c n = (c, 0, [])) ∧
    (0 < n →
      (Lru.Resize c n).2.1 = max ((Lru.Len c : Int) - n) 0 ∧
      (Lru.Resize c n).1.size = n.toNat ∧
      (Lru.Resize c n).1.evictList =
        c.evictList.take (c.evictList.length -
          (max ((Lru.Len c : Int) - n) 0).toNat) ∧
      (Lru.Resize c n).2.2 =
        (c.evictList.reverse.take
          (max ((Lru.Len c : Int) - n) 0).toNat).map
            (fun e => (e.2.key, e.2.value)) ∧
      (Lru.Resize c n).2.2.length = (max ((Lru.Len c : Int) - n) 0).toNat ∧
      Lru.Len (Lru.Resize c n).1 =
        c.evictList.length - (max ((Lru.Len c : Int) - n) 0).toNat) := by
  unfold Lru.Len
  constructor
  · intro hn
    unfold Lru.Resize
    rw [if_pos hn]
  · intro hn
    have hc := Lru.reachable_inv h
    have hLL : c.listLen = c.evictList.length := hc.2.2.2.2.2.2
    have hk : (max ((c.listLen : Int) - n) 0).toNat ≤
        c.evictList.length := by
      omega
    obtain ⟨hEl, hCb, hLn, hSz⟩ := Lru.removeOldestN_spec hc _ hk
    have hnn : ¬ n ≤ 0 := by omega
    unfold Lru.Resize
    rw [if_neg hnn]
    dsimp only
    refine ⟨rfl, rfl, hEl, hCb, ?_, ?_⟩
    · rw [hCb, List.length_map, List.length_take, List.length_reverse]
      omega
    · show (Lru.removeOldestN (max ((c.listLen : Int) - n) 0).toNat
        c).1.listLen = _
      omega

/-- Witness for C7: shrinking a 2-entry unlimited cache to capacity 1. -/
theorem resize_spec_witness :
    ((1 : Int) ≤ 0 → Lru.Resize (Lru.applyOp (Lru.Op.add 0 2 6)
        (Lru.applyOp (Lru.Op.add 0 1 5)
          (Lru.newLRU 0 100 : Lru.CacheState Nat Nat)).1).1 1 =
      ((Lru.applyOp (Lru.Op.add 0 2 6) (Lru.applyOp (Lru.Op.add 0 1 5)
          (Lru.newLRU 0 100 : Lru.CacheState Nat Nat)).1).1, 0, [])) ∧
    ((0 : Int) < 1 →
      (Lru.Resize (Lru.applyOp (Lru.Op.add 0 2 6)
          (Lru.applyOp (Lru.Op.add 0 1 5)
            (Lru.newLRU 0 100 : Lru.CacheState Nat Nat)).1).1 1).2.1 =
        max ((Lru.Len (Lru.applyOp (Lru.Op.add 0 2 6)
          (Lru.applyOp (Lru.Op.add 0 1 5)
            (Lru.newLRU 0 100 : Lru.CacheState Nat Nat)).1).1 : Int) - 1) 0 ∧
      (Lru.Resize (Lru.applyOp (Lru.Op.add 0 2 6)
          (Lru.applyOp (Lru.Op.add 0 1 5)
            (Lru.newLRU 0 100 : Lru.CacheState Nat Nat)).1).1 1).1.size =
        (1 : Int).toNat ∧
      (Lru.Resize (Lru.applyOp (Lru.Op.add 0 2 6)
          (Lru.applyOp (Lru.Op.add 0 1 5)
            (Lru.newLRU 0 100 : Lru.CacheState Nat Nat)).1).1 1).1.evictList =
        (Lru.applyOp (Lru.Op.add 0 2 6) (Lru.applyOp (Lru.Op.add 0 1 5)
            (Lru.newLRU 0 100 :
              Lru.CacheState Nat Nat)).1).1.evictList.take
          ((Lru.applyOp (Lru.Op.add 0 2 6) (Lru.applyOp (Lru.Op.add 0 1 5)
            (Lru.newLRU 0 100 :
              Lru.CacheState Nat Nat)).1).1.evictList.length -
           (max ((Lru.Len (Lru.applyOp (Lru.Op.add 0 2 6)
              (Lru.applyOp (Lru.Op.add 0 1 5)
                (Lru.newLRU 0 100 :
                  Lru.CacheState Nat Nat)).1).1 : Int) - 1) 0).toNat) ∧
      (Lru.Resize (Lru.applyOp (Lru.Op.add 0 2 6)
          (Lru.applyOp (Lru.Op.add 0 1 5)
            (Lru.newLRU 0 100 : Lru.CacheState Nat Nat)).1).1 1).2.2 =
        ((Lru.applyOp (Lru.Op.add 0 2 6) (Lru.applyOp (Lru.Op.add 0 1 5)
            (Lru.newLRU 0 100 :
              Lru.CacheState Nat Nat)).1).1.evictList.reverse.take
          (max ((Lru.Len (Lru.applyOp (Lru.Op.add 0 2 6)
            (Lru.applyOp (Lru.Op.add 0 1 5)
              (Lru.newLRU 0 100 :
                Lru.CacheState Nat Nat)).1).1 : Int) - 1) 0).toNat).map
          (fun e => (e.2.key, e.2.value)) ∧
      (Lru.Resize (Lru.applyOp (Lru.Op.add 0 2 6)
          (Lru.applyOp (Lru.Op.add 0 1 5)
            (Lru.newLRU 0 100 : Lru.CacheState Nat Nat)).1).1 1).2.2.length =
        (max ((Lru.Len (Lru.applyOp (Lru.Op.add 0 2 6)
          (Lru.applyOp (Lru.Op.add 0 1 5)
            (Lru.newLRU 0 100 :
              Lru.CacheState Nat Nat)).1).1 : Int) - 1) 0).toNat ∧
      Lru.Len (Lru.Resize (Lru.applyOp (Lru.Op.add 0 2 6)
          (Lru.applyOp (Lru.Op.add 0 1 5)
            (Lru.newLRU 0 100 : Lru.CacheState Nat Nat)).1).1 1).1 =
        (Lru.applyOp (Lru.Op.add 0 2 6) (Lru.applyOp (Lru.Op.add 0 1 5)
            (Lru.newLRU 0 100 :
              Lru.CacheState Nat Nat)).1).1.evictList.length -
        (max ((Lru.Len (Lru.applyOp (Lru.Op.add 0 2 6)
          (Lru.applyOp (Lru.Op.add 0 1 5)
            (Lru.newLRU 0 100 :
              Lru.CacheState Nat Nat)).1).1 : Int) - 1) 0).toNat) :=
  resize_spec
    (Lru.Reachable.step (Lru.Op.add 0 2 6)
      (Lru.Reachable.step (Lru.Op.add 0 1 5) (Lru.Reachable.init 0 100))) 1

/-- C6: `deleteExpired` removes exactly the entries whose `expiresAt` is
strictly before `now`: the surviving eviction list is the original list
filtered to the non-expired entries (unchanged relative order), and the
eviction callbacks fire once per expired entry in oldest-to-newest
(`keys()`) order. -/
theorem deleteExpired_spec {KT VT : Type} [DecidableEq KT]
    {c : Lru.CacheState KT VT} (h : Lru.Reachable c) (now : Int) :
    (Lru.deleteExpired c now).1.evictList =
      c.evictList.filter (fun e => !(decide (now > e.2.expiresAt))) ∧
    (Lru.deleteExpired c now).2 =
      (c.evictList.reverse.filter
        (fun e => decide (now > e.2.expiresAt))).map
        (fun e => (e.2.key, e.2.value)) :=
  Lru.deleteExpired_eqs (Lru.reachable_inv h) now

/-- Witness for C6: one expired (key 1, expiry −1) and one live (key 2,
expiry 100) entry, swept at time 3. -/
theorem deleteExpired_spec_witness :
    (Lru.deleteExpired (Lru.applyOp (Lru.Op.add 0 2 6)
        (Lru.applyOp (Lru.Op.addWithTTL 0 1 5 (-1))
          (Lru.newLRU 0 100 : Lru.CacheState Nat Nat)).1).1 3).1.evictList =
      (Lru.applyOp (Lru.Op.add 0 2 6)
        (Lru.applyOp (Lru.Op.addWithTTL 0 1 5 (-1))
          (Lru.newLRU 0 100 :
            Lru.CacheState Nat Nat)).1).1.evictList.filter
        (fun e => !(decide ((3 : Int) > e.2.expiresAt))) ∧
    (Lru.deleteExpired (Lru.applyOp (Lru.Op.add 0 2 6)
        (Lru.applyOp (Lru.Op.addWithTTL 0 1 5 (-1))
          (Lru.newLRU 0 100 : Lru.CacheState Nat Nat)).1).1 3).2 =
      ((Lru.applyOp (Lru.Op.add 0 2 6)
        (Lru.applyOp (Lru.Op.addWithTTL 0 1 5 (-1))
          (Lru.newLRU 0 100 :
            Lru.CacheState Nat Nat)).1).1.evictList.reverse.filter
        (fun e => decide ((3 : Int) > e.2.expiresAt))).map
        (fun e => (e.2.key, e.2.value)) :=
  deleteExpired_spec
    (Lru.Reachable.step (Lru.Op.add 0 2 6)
      (Lru.Reachable.step (Lru.Op.addWithTTL 0 1 5 (-1))
        (Lru.Reachable.init 0 100))) 3

/-- C8: for any single public operation on a reachable state, the eviction
callback events it emits are, as a multiset, exactly one
`(key, last stored value)` pair per entry whose node left the eviction list
during that operation — covering capacity eviction inside `add`/`addWithTTL`,
explicit `Remove`, `removeOldest`, `Resize`, `deleteExpired` (the background
sweep executes exactly this under the lock), and `purge` — and no event is
emitted by an operation that removes nothing (such as `Remove` of an absent
key or `purge` of an empty cache, where the departed-entry list is empty). -/
theorem eviction_callback_completeness {KT VT : Type} [DecidableEq KT]
    {c : Lru.CacheState KT VT} (h : Lru.Reachable c) (op : Lru.Op KT VT) :
    ((Lru.applyOp op c).2).Perm
      ((c.evictList.filter (fun e => !(decide (e.1 ∈
        (Lru.applyOp op c).1.evictList.map (fun p => p.1))))).map
        (fun e => (e.2.key, e.2.value))) := by
  have hc := Lru.reachable_inv h
  cases op with
  | add now k v => exact Lru.add_callback_perm hc now k v c.ttl
  | addWithTTL now k v t => exact Lru.add_callback_perm hc now k v t
  | get now k =>
      have hmm : ∀ e ∈ c.evictList, e.1 ∈
          (Lru.applyOp (Lru.Op.get now k) c).1.evictList.map
            (fun p => p.1) := fun e he =>
        Lru.fst_mem_map_of_mem
          ((Lru.Get_evictList_perm c now k).mem_iff.2 he)
      rw [Lru.filter_departed_eq_nil hmm]
      exact List.Perm.refl _
  | peek now k =>
      have hmm : ∀ e ∈ c.evictList, e.1 ∈
          (Lru.applyOp (Lru.Op.peek now k) c).1.evictList.map
            (fun p => p.1) := fun e he => Lru.fst_mem_map_of_mem he
      rw [Lru.filter_departed_eq_nil hmm]
      exact List.Perm.refl _
  | getOldest =>
      have hmm : ∀ e ∈ c.evictList, e.1 ∈
          (Lru.applyOp Lru.Op.getOldest c).1.evictList.map
            (fun p => p.1) := fun e he => Lru.fst_mem_map_of_mem he
      rw [Lru.filter_departed_eq_nil hmm]
      exact List.Perm.refl _
  | contains k =>
      have hmm : ∀ e ∈ c.evictList, e.1 ∈
          (Lru.applyOp (Lru.Op.contains k) c).1.evictList.map
            (fun p => p.1) := fun e he => Lru.fst_mem_map_of_mem he
      rw [Lru.filter_departed_eq_nil hmm]
      exact List.Perm.refl _
  | keys =>
      have hmm : ∀ e ∈ c.evictList, e.1 ∈
          (Lru.applyOp Lru.Op.keys c).1.evictList.map
            (fun p => p.1) := fun e he => Lru.fst_mem_map_of_mem he
      rw [Lru.filter_departed_eq_nil hmm]
      exact List.Perm.refl _
  | len =>
      have hmm : ∀ e ∈ c.evictList, e.1 ∈
          (Lru.applyOp Lru.Op.len c).1.evictList.map
            (fun p => p.1) := fun e he => Lru.fst_mem_map_of_mem he
      rw [Lru.filter_departed_eq_nil hmm]
      exact List.Perm.refl _
  | remove k => exact Lru.Remove_callback_perm hc k
  | removeOldest => exact Lru.removeOldest_callback_perm hc
  | deleteExpired now => exact Lru.deleteExpired_callback_perm hc now
  | resize n =>
      have hLL : c.listLen = c.evictList.length := hc.2.2.2.2.2.2
      by_cases hn : n ≤ 0
      · have hmm : ∀ e ∈ c.evictList, e.1 ∈
            (Lru.applyOp (Lru.Op.resize n) c).1.evictList.map
              (fun p => p.1) := by
          intro e he
          show e.1 ∈ (Lru.Resize c n).1.evictList.map (fun p => p.1)
          unfold Lru.Resize
          rw [if_pos hn]
          exact Lru.fst_mem_map_of_mem he
        rw [Lru.filter_departed_eq_nil hmm]
        show (Lru.Resize c n).2.2.Perm _
        unfold Lru.Resize
        rw [if_pos hn]
        exact List.Perm.refl _
      · have hk : (max ((c.listLen : Int) - n) 0).toNat ≤
            c.evictList.length := by
          omega
        have hbase := Lru.removeOldestN_callback_perm hc _ hk
        show (Lru.Resize c n).2.2.Perm
          ((c.evictList.filter (fun e => !(decide (e.1 ∈
            (Lru.Resize c n).1.evictList.map (fun p => p.1))))).map
            (fun e => (e.2.key, e.2.value)))
        unfold Lru.Resize
        rw [if_neg hn]
        exact hbase
  | purge => exact Lru.purge_callback_perm hc

/-- Witness for C8: a purge of a two-entry cache emits both entries. -/
theorem eviction_callback_completeness_witness :
    ((Lru.applyOp Lru.Op.purge (Lru.applyOp (Lru.Op.add 0 2 6)
        (Lru.applyOp (Lru.Op.add 0 1 5)
          (Lru.newLRU 0 100 : Lru.CacheState Nat Nat)).1).1).2).Perm
      (((Lru.applyOp (Lru.Op.add 0 2 6) (Lru.applyOp (Lru.Op.add 0 1 5)
          (Lru.newLRU 0 100 :
            Lru.CacheState Nat Nat)).1).1.evictList.filter
        (fun e => !(decide (e.1 ∈
          (Lru.applyOp Lru.Op.purge (Lru.applyOp (Lru.Op.add 0 2 6)
            (Lru.applyOp (Lru.Op.add 0 1 5)
              (Lru.newLRU 0 100 :
                Lru.CacheState Nat Nat)).1).1).1.evictList.map
            (fun p => p.1))))).map (fun e => (e.2.key, e.2.value))) :=
  eviction_callback_completeness
    (Lru.Reachable.step (Lru.Op.add 0 2 6)
      (Lru.Reachable.step (Lru.Op.add 0 1 5) (Lru.Reachable.init 0 100)))
    Lru.Op.purge

/-- C9: a node whose list back-reference is not `l` (a node of a different
list, or a detached node) is a safe no-op argument for every `list.go`
operation on `l` that takes it as the element or as the mark: `Remove`,
`MoveToFront`, `MoveToBack`, `MoveBefore` and `MoveAfter` return `l` exactly
unchanged (same elements, order and length), and `InsertBefore` /
`InsertAfter` with it as the mark return `nil` and leave `l` unchanged; in
the model every operation is a total function, there is no crashing path. -/
theorem foreign_node_is_noop {KT VT : Type} [DecidableEq KT]
    (l : Lru.LList KT VT) (e : Lru.LElement KT VT)
    (hno : e.owner ≠ some l.lid) :
    Lru.LRemove l e = l ∧
    Lru.LMoveToFront l e = l ∧
    Lru.LMoveToBack l e = l ∧
    (∀ mark, Lru.LMoveBefore l e mark = l) ∧
    (∀ mark, Lru.LMoveAfter l e mark = l) ∧
    (∀ x, Lru.LMoveBefore l x e = l) ∧
    (∀ x, Lru.LMoveAfter l x e = l) ∧
    (∀ v newId, Lru.LInsertBefore l v e newId = (l, none)) ∧
    (∀ v newId, Lru.LInsertAfter l v e newId = (l, none)) := by
  refine ⟨?_, ?_, ?_, ?_, ?_, ?_, ?_, ?_, ?_⟩
  · unfold Lru.LRemove
    rw [if_neg hno]
  · unfold Lru.LMoveToFront
    rw [if_pos (Or.inl hno)]
  · unfold Lru.LMoveToBack
    rw [if_pos (Or.inl hno)]
  · intro mark
    unfold Lru.LMoveBefore
    rw [if_pos (Or.inl hno)]
  · intro mark
    unfold Lru.LMoveAfter
    rw [if_pos (Or.inl hno)]
  · intro x
    unfold Lru.LMoveBefore
    rw [if_pos (Or.inr (Or.inr hno))]
  · intro x
    unfold Lru.LMoveAfter
    rw [if_pos (Or.inr (Or.inr hno))]
  · intro v newId
    unfold Lru.LInsertBefore
    rw [if_pos hno]
  · intro v newId
    unfold Lru.LInsertAfter
    rw [if_pos hno]

/-- Witness for C9: a one-node list with address 0 and a node owned by the
(different) list with address 5. -/
theorem foreign_node_is_noop_witness :
    (Lru.LElement.owner ⟨2, some 5, ⟨3, 4, 5⟩⟩ ≠
      some (Lru.LList.lid (⟨0, [⟨1, some 0, ⟨7, 8, 9⟩⟩], 1⟩ :
        Lru.LList Nat Nat))) ∧
    (Lru.LRemove (⟨0, [⟨1, some 0, ⟨7, 8, 9⟩⟩], 1⟩ : Lru.LList Nat Nat)
        ⟨2, some 5, ⟨3, 4, 5⟩⟩ =
      (⟨0, [⟨1, some 0, ⟨7, 8, 9⟩⟩], 1⟩ : Lru.LList Nat Nat) ∧
    Lru.LMoveToFront (⟨0, [⟨1, some 0, ⟨7, 8, 9⟩⟩], 1⟩ : Lru.LList Nat Nat)
        ⟨2, some 5, ⟨3, 4, 5⟩⟩ =
      (⟨0, [⟨1, some 0, ⟨7, 8, 9⟩⟩], 1⟩ : Lru.LList Nat Nat) ∧
    Lru.LMoveToBack (⟨0, [⟨1, some 0, ⟨7, 8, 9⟩⟩], 1⟩ : Lru.LList Nat Nat)
        ⟨2, some 5, ⟨3, 4, 5⟩⟩ =
      (⟨0, [⟨1, some 0, ⟨7, 8, 9⟩⟩], 1⟩ : Lru.LList Nat Nat) ∧
    (∀ mark, Lru.LMoveBefore
        (⟨0, [⟨1, some 0, ⟨7, 8, 9⟩⟩], 1⟩ : Lru.LList Nat Nat)
        ⟨2, some 5, ⟨3, 4, 5⟩⟩ mark =
      (⟨0, [⟨1, some 0, ⟨7, 8, 9⟩⟩], 1⟩ : Lru.LList Nat Nat)) ∧
    (∀ mark, Lru.LMoveAfter
        (⟨0, [⟨1, some 0, ⟨7, 8, 9⟩⟩], 1⟩ : Lru.LList Nat Nat)
        ⟨2, some 5, ⟨3, 4, 5⟩⟩ mark =
      (⟨0, [⟨1, some 0, ⟨7, 8, 9⟩⟩], 1⟩ : Lru.LList Nat Nat)) ∧
    (∀ x, Lru.LMoveBefore
        (⟨0, [⟨1, some 0, ⟨7, 8, 9⟩⟩], 1⟩ : Lru.LList Nat Nat)
        x ⟨2, some 5, ⟨3, 4, 5⟩⟩ =
      (⟨0, [⟨1, some 0, ⟨7, 8, 9⟩⟩], 1⟩ : Lru.LList Nat Nat)) ∧
    (∀ x, Lru.LMoveAfter
        (⟨0, [⟨1, some 0, ⟨7, 8, 9⟩⟩], 1⟩ : Lru.LList Nat Nat)
        x ⟨2, some 5, ⟨3, 4, 5⟩⟩ =
      (⟨0, [⟨1, some 0, ⟨7, 8, 9⟩⟩], 1⟩ : Lru.LList Nat Nat)) ∧
    (∀ v newId, Lru.LInsertBefore
        (⟨0, [⟨1, some 0, ⟨7, 8, 9⟩⟩], 1⟩ : Lru.LList Nat Nat)
        v ⟨2, some 5, ⟨3, 4, 5⟩⟩ newId =
      ((⟨0, [⟨1, some 0, ⟨7, 8, 9⟩⟩], 1⟩ : Lru.LList Nat Nat), none)) ∧
    (∀ v newId, Lru.LInsertAfter
        (⟨0, [⟨1, some 0, ⟨7, 8, 9⟩⟩], 1⟩ : Lru.LList Nat Nat)
        v ⟨2, some 5, ⟨3, 4, 5⟩⟩ newId =
      ((⟨0, [⟨1, some 0, ⟨7, 8, 9⟩⟩], 1⟩ : Lru.LList Nat Nat), none))) :=
  ⟨by decide,
   foreign_node_is_noop (⟨0, [⟨1, some 0, ⟨7, 8, 9⟩⟩], 1⟩ :
      Lru.LList Nat Nat) ⟨2, some 5, ⟨3, 4, 5⟩⟩ (by decide)⟩
